import Mathlib

/-!
# Verification of the cascade-cards core engines

A shallow embedding of the cascade-cards repository's decision engines:

* the card-stack engine (`HoverEngine` in `hover-engine.ts`): card collection,
  `openCard` with bounded-size eviction, recursive `closeCard`, `pinCard`,
  `followLink`, and content resolution over an ordered list of sources;
* the term matcher (`TermMatcher` in `term-matcher.ts`): term registry,
  per-segment regex scanning, confidence scoring;
* the pointer-zone tracker (`PointerEngine` in `pointer-engine.ts`):
  edge-triggered zone-change notification;
* the stack controller's delay selection (`provider.tsx`) together with the
  configuration defaults (`HoverBehaviorConfigSchema` in `types.ts`).

Modelling conventions:

* JavaScript `Map`s (insertion-ordered) are association lists of structures
  keyed by an `id` field; `Map.get` is `find?` on the id, `Map.set` replaces
  in place or appends.
* Card ids are generated only by `generateCardId`, which formats the strictly
  increasing counter as `hoverkit-card-<n>`; ids are therefore modelled by the
  counter value itself (a `Nat`), which is in bijection with the id strings.
* The unbounded `while`/recursion of the source (ancestor-chain walk,
  recursive `closeCard`) terminates because the card map is finite; it is
  modelled with an explicit fuel that the lemmas show sufficient.
* Floating-point confidence constants 1.0 / 0.9 / 0.8 are modelled as exact
  rationals (only equality between these constants is ever used).
* JavaScript string/regex operations are modelled over `List Char` with ASCII
  case folding (`toLowerCase`, the `i` regex flag, and `\b` word boundaries
  restricted to ASCII word characters), which covers all inputs used here.
* DOM hit-testing and geometry are abstracted: text segments are the accepted
  text nodes in document order, and pointer hit-tests are abstract hit lists.
-/

/-! ## Data model (`types.ts`) -/

/-- `DataSourceContent` — only the presence/identity of a resolved payload
matters to the lifecycle claims, so the body fields are kept abstract. -/
structure Content where
  title : String
deriving DecidableEq, Repr

/-- A screen position `{x, y}`. -/
structure Pos where
  x : Int
  y : Int
deriving DecidableEq, Repr

/-- `CardState` from `types.ts`.  `openedAt` is always set by `openCard`
(the TS field is optional but every creation site populates it). -/
structure CardState where
  id : Nat
  term : String
  content : Option Content
  position : Pos
  isPinned : Bool
  isLoading : Bool
  parentId : Option Nat
  level : Nat
  openedAt : Nat
deriving DecidableEq, Repr

/-- The lifecycle events emitted by the engine (`HoverKitEvents`); the
term-hover events do not touch the card collection and are omitted. -/
inductive EngineEvent where
  | cardOpen (card : CardState)
  | cardClose (cardId : Nat)
  | cardPin (cardId : Nat)
deriving DecidableEq, Repr

/-- The behavior configuration fields consumed by the engine model
(`HoverBehaviorConfigSchema`). -/
structure HoverConfig where
  maxOpenCards : Nat
  linkFollowInNewCard : Bool
deriving DecidableEq, Repr

/-- The full engine state: the card `Map` (insertion ordered), the stream of
emitted events, and the card-id counter. -/
structure EngineState where
  cards : List CardState
  events : List EngineEvent
  counter : Nat
deriving DecidableEq, Repr

/-- The state of a fresh `HoverEngine`. -/
def initState : EngineState := { cards := [], events := [], counter := 0 }

/-- `this.cards.get(cid)` — lookup by id. -/
def findCard (cards : List CardState) (cid : Nat) : Option CardState :=
  cards.find? (fun c => c.id == cid)

/-- `this.cards.set(card.id, card)` — JavaScript `Map.set`: update in place
if the key exists, otherwise append in insertion order. -/
def mapSet (cards : List CardState) (card : CardState) : List CardState :=
  if cards.any (fun c => c.id == card.id) then
    cards.map (fun c => if c.id == card.id then card else c)
  else
    cards ++ [card]

/-! ## Card stack engine (`hover-engine.ts`) -/

/-- The `while (current) { ancestorIds.add(current); current =
this.cards.get(current)?.parentId }` walk in `openCard`, collecting the id
chain upward from a starting id.  Fuel bounds the walk; the engine always
supplies `cards.length + 1`, which the well-formedness lemmas show exhausts
any parent chain. -/
def chainUp (cards : List CardState) : Nat → Option Nat → List Nat
  | _, none => []
  | 0, some _ => []
  | fuel + 1, some cid => cid :: chainUp cards fuel ((findCard cards cid).bind (·.parentId))

/-- `x` lies in the subtree rooted at `root` (is `root` or a transitive
descendant through `parentId` links), computably: `root` occurs on the
parent chain walked up from `x`. -/
def descB (cards : List CardState) (root x : Nat) : Bool :=
  (chainUp cards (cards.length + 1) (some x)).contains root

/-- `x` is `root` or a transitive descendant of `root` through `parentId`
links within `cards` (the propositional counterpart of `descB`). -/
inductive Desc (cards : List CardState) (root : Nat) : Nat → Prop where
  | refl : Desc cards root root
  | step {c : CardState} {p : Nat} :
      c ∈ cards → c.parentId = some p → Desc cards root p → Desc cards root c.id

/-- `closeCard(cardId)` from `hover-engine.ts`: if the card exists, first
recursively close every card whose `parentId` is `cardId` (in map order),
then delete the card and emit one `cardClose` event.  Fuel bounds the
recursion depth, which the source bounds by finiteness of the map. -/
def closeCard : Nat → EngineState → Nat → EngineState
  | 0, st, _ => st
  | fuel + 1, st, cardId =>
    match findCard st.cards cardId with
    | none => st
    | some _ =>
      let childCards := st.cards.filter (fun c => c.parentId == some cardId)
      let st' := childCards.foldl (fun s child => closeCard fuel s child.id) st
      { st' with
          cards := st'.cards.filter (fun c => !(c.id == cardId)),
          events := st'.events ++ [EngineEvent.cardClose cardId] }

/-- The public `closeCard` entry point, with fuel covering the deepest
possible recursion (nesting depth never exceeds the card count). -/
def closeCardTop (st : EngineState) (cardId : Nat) : EngineState :=
  closeCard (st.cards.length + 1) st cardId

/-- `Array.from(this.cards.values()).filter(card => card.isPinned ||
card.isLoading)` — the cards counted against `maxOpenCards`. -/
def openCardsOf (cards : List CardState) : List CardState :=
  cards.filter (fun c => c.isPinned || c.isLoading)

/-- Insertion into a sorted list, placing the new element before the first
element it compares `le` to (so earlier elements stay before equal later
ones — the stability JavaScript's `Array.prototype.sort` guarantees). -/
def insertSorted {α : Type} (le : α → α → Bool) (x : α) : List α → List α
  | [] => [x]
  | y :: ys => if le x y then x :: y :: ys else y :: insertSorted le x ys

/-- A stable comparison sort, modelling `Array.prototype.sort(comparator)`
(stable per the ECMAScript specification). -/
def sortByLe {α : Type} (le : α → α → Bool) : List α → List α
  | [] => []
  | x :: xs => insertSorted le x (sortByLe le xs)

/-- The eviction choice inside `openCard`: ancestor ids of the prospective
parent chain, then the open cards that are not ancestors, stably sorted by
`openedAt` ascending (JavaScript `sort` with comparator
`(a.openedAt ?? 0) - (b.openedAt ?? 0)`), and `byOpened[0] ?? null`. -/
def evictionTarget (cards : List CardState) (parentId : Option Nat) : Option CardState :=
  let openCards := openCardsOf cards
  let ancestorIds := chainUp cards (cards.length + 1) parentId
  let candidates := openCards.filter (fun c => !(ancestorIds.contains c.id))
  let byOpened := sortByLe (fun a b => a.openedAt ≤ b.openedAt) candidates
  byOpened.head?

/-- The synchronous part of `openCard(term, triggerElement, position,
parentId?)`: eviction check against `maxOpenCards`, then eager creation of
the loading card (`level` from the post-eviction map, `isPinned: true`,
`isLoading: true`, `openedAt: Date.now()`), insertion, and the first
`cardOpen` emission.  Returns the new state and the generated card id. -/
def openCardSync (cfg : HoverConfig) (st : EngineState) (term : String) (position : Pos)
    (parentId : Option Nat) (now : Nat) : EngineState × Nat :=
  let st1 :=
    if cfg.maxOpenCards ≤ (openCardsOf st.cards).length then
      match evictionTarget st.cards parentId with
      | some toClose => closeCardTop st toClose.id
      | none => st
    else st
  let cardId := st1.counter + 1
  let level :=
    match parentId with
    | some pid => ((findCard st1.cards pid).map (·.level)).getD 0 + 1
    | none => 0
  let card : CardState :=
    { id := cardId, term := term, content := none, position := position,
      isPinned := true, isLoading := true, parentId := parentId,
      level := level, openedAt := now }
  ({ cards := mapSet st1.cards card,
     events := st1.events ++ [EngineEvent.cardOpen card],
     counter := cardId }, cardId)

/-- The outcome of one `source.resolve(term)` call: a rejection, or `null`,
or content. -/
abbrev SourceResult := Except Unit (Option Content)

/-- `resolveContent(term)` from `hover-engine.ts`: try each source in order;
a throwing/rejecting source is caught, logged and skipped; the first
non-null content is returned; otherwise `null`.  The result is an `Except`
to record that the method itself never propagates an exception. -/
def resolveContentE : List SourceResult → Except Unit (Option Content)
  | [] => Except.ok none
  | Except.error _ :: rest => resolveContentE rest
  | Except.ok none :: rest => resolveContentE rest
  | Except.ok (some c) :: _ => Except.ok (some c)

/-- The value `resolveContent` settles with (it never throws). -/
def resolveContent (sources : List SourceResult) : Option Content :=
  match resolveContentE sources with
  | Except.ok r => r
  | Except.error _ => none

/-- Modelled from the spec, §4.3/§6: "the first source returning non-null
content wins; a source throwing or rejecting is ... treated as 'no answer'".
Used as the specification-side definition to compare `resolveContentE`
against. -/
def specFirstContent (sources : List SourceResult) : Option Content :=
  (sources.filterMap (fun s =>
    match s with
    | Except.ok (some c) => some c
    | _ => none)).head?

/-- The completion of `openCard`'s awaited content resolution: the captured
card object is mutated (`content`, `isLoading := false`) and `cardOpen` is
re-emitted.  At the map level this updates the entry with the given id (if
the card was closed meanwhile, only the detached object is mutated and the
map is unchanged); the re-emission carries the updated card. -/
def applyResolved (st : EngineState) (cardId : Nat) (content : Option Content) : EngineState :=
  match findCard st.cards cardId with
  | none => st
  | some c =>
    let c' := { c with content := content, isLoading := false }
    { st with
        cards := st.cards.map (fun d => if d.id == cardId then c' else d),
        events := st.events ++ [EngineEvent.cardOpen c'] }

/-- `openCard` including the awaited resolution (the non-interleaved run of
the async method): synchronous creation, then resolution of the sources and
the state update of the `try`/`catch` block. -/
def openCardFull (cfg : HoverConfig) (st : EngineState) (term : String) (position : Pos)
    (parentId : Option Nat) (now : Nat) (sources : List SourceResult) : EngineState × Nat :=
  let r := openCardSync cfg st term position parentId now
  (applyResolved r.1 r.2 (resolveContent sources), r.2)

/-- `closeUnpinnedCard(term)`: find a card for the term with
`!c.isPinned` and close it; otherwise do nothing. -/
def closeUnpinnedCard (st : EngineState) (term : String) : EngineState :=
  match st.cards.find? (fun c => c.term == term && !c.isPinned) with
  | some c => closeCardTop st c.id
  | none => st

/-- `pinCard(term, element)`: if no card exists for the term, open a new one
(the viewport-clamped geometry next to the trigger is abstracted into the
supplied position); if one exists unpinned, mark it pinned and emit
`cardPin`; if it exists pinned, do nothing. -/
def pinCard (cfg : HoverConfig) (st : EngineState) (term : String) (adjacentPos : Pos)
    (now : Nat) : EngineState :=
  match st.cards.find? (fun c => c.term == term) with
  | none => (openCardSync cfg st term adjacentPos none now).1
  | some c =>
    if !c.isPinned then
      { st with
          cards := st.cards.map (fun d => if d.id == c.id then { d with isPinned := true } else d),
          events := st.events ++ [EngineEvent.cardPin c.id] }
    else st

/-- The synchronous part of `followLink`'s replace-in-place branch: mutate
the existing card's `term`, reset `content` to `null`, set `isLoading`, and
re-emit `cardOpen` against the same id (same `parentId`/`level`). -/
def replaceLinkSync (st : EngineState) (linkTerm : String) (fromCardId : Nat) : EngineState :=
  match findCard st.cards fromCardId with
  | none => st
  | some c =>
    let c' := { c with term := linkTerm, content := none, isLoading := true }
    { st with
        cards := st.cards.map (fun d => if d.id == fromCardId then c' else d),
        events := st.events ++ [EngineEvent.cardOpen c'] }

/-- `followLink(linkTerm, fromCardId, position)` including the awaited
resolution: `null` when the source card is gone; otherwise either a stacked
`openCard` with `parentId = fromCardId`, or the in-place replacement. -/
def followLink (cfg : HoverConfig) (st : EngineState) (linkTerm : String) (fromCardId : Nat)
    (position : Pos) (now : Nat) (sources : List SourceResult) :
    EngineState × Option Nat :=
  match findCard st.cards fromCardId with
  | none => (st, none)
  | some _ =>
    if cfg.linkFollowInNewCard then
      let r := openCardFull cfg st linkTerm position (some fromCardId) now sources
      (r.1, some r.2)
    else
      let st1 := replaceLinkSync st linkTerm fromCardId
      (applyResolved st1 fromCardId (resolveContent sources), some fromCardId)

/-! ## Engine well-formedness and reachability -/

/-- The per-card level/parent condition of the data-model invariant, as the
code maintains it: no parent gives level 0; a parent must be present and the
level is the parent's plus one. -/
def levelOkB (cards : List CardState) (c : CardState) : Bool :=
  match c.parentId with
  | none => c.level == 0
  | some pid =>
    match findCard cards pid with
    | none => false
    | some p => c.level == p.level + 1

/-- Well-formed card collection: distinct ids and the level/parent
invariant for every card. -/
def WF (cards : List CardState) : Prop :=
  (cards.map (·.id)).Nodup ∧ cards.all (levelOkB cards) = true

instance (cards : List CardState) : Decidable (WF cards) := by
  unfold WF; infer_instance

/-- The full engine invariant: well-formed cards, ids bounded by the
generation counter (freshness), and every card pinned from creation. -/
def EngineInv (st : EngineState) : Prop :=
  WF st.cards ∧ (∀ c ∈ st.cards, c.id ≤ st.counter ∧ c.isPinned = true)

/-- One public mutation of the engine's card collection.  The `open` step
carries the creation precondition recorded in the spec's data model: a
supplied `parentId` refers to a currently existing card (the in-repo
callers guarantee this; `followLink` checks it explicitly). -/
inductive EngineStep (cfg : HoverConfig) : EngineState → EngineState → Prop where
  | openStep (st : EngineState) (term : String) (position : Pos) (parentId : Option Nat)
      (now : Nat)
      (hparent : ∀ pid, parentId = some pid → ∃ c ∈ st.cards, c.id = pid) :
      EngineStep cfg st (openCardSync cfg st term position parentId now).1
  | closeStep (st : EngineState) (cardId : Nat) :
      EngineStep cfg st (closeCardTop st cardId)
  | resolvedStep (st : EngineState) (cardId : Nat) (content : Option Content) :
      EngineStep cfg st (applyResolved st cardId content)
  | replaceStep (st : EngineState) (linkTerm : String) (fromCardId : Nat) :
      EngineStep cfg st (replaceLinkSync st linkTerm fromCardId)
  | pinStep (st : EngineState) (term : String) (adjacentPos : Pos) (now : Nat) :
      EngineStep cfg st (pinCard cfg st term adjacentPos now)
  | closeUnpinnedStep (st : EngineState) (term : String) :
      EngineStep cfg st (closeUnpinnedCard st term)

/-- States reachable from a fresh engine through the public operations. -/
inductive Reachable (cfg : HoverConfig) : EngineState → Prop where
  | init : Reachable cfg initState
  | step {st st' : EngineState} :
      Reachable cfg st → EngineStep cfg st st' → Reachable cfg st'

/-! ## Term matcher (`term-matcher.ts`) -/

/-- The `HighlightingConfig` fields the matcher consumes. -/
structure HighlightConfig where
  wordBoundary : Bool
  caseSensitive : Bool
deriving DecidableEq, Repr

/-- `toLowerCase` on a string modelled as a character list (ASCII case
folding, `Char.toLower` per character). -/
def lowerStr (s : List Char) : List Char :=
  s.map Char.toLower

/-- A `\w` word character of JavaScript regexes (ASCII). -/
def isWordChar (c : Char) : Bool :=
  ('a' ≤ c && c ≤ 'z') || ('A' ≤ c && c ≤ 'Z') || ('0' ≤ c && c ≤ '9') || c == '_'

/-- Whether position `i` of `text` is a `\b` word boundary: the characters
on the two sides of the position differ in word-character-ness (a position
outside the text counts as non-word). -/
def boundaryAt (text : List Char) (i : Nat) : Bool :=
  let before := if h : 0 < i ∧ i - 1 < text.length then isWordChar (text.get ⟨i - 1, h.2⟩) else false
  let after := if h : i < text.length then isWordChar (text.get ⟨i, h⟩) else false
  before != after

/-- Case-insensitive match of the literal (escaped) `term` pattern against
`text` at position `i` — the `i` regex flag that `findTermsInText` always
sets. -/
def ciMatchAt (term text : List Char) (i : Nat) : Bool :=
  ((text.drop i).take term.length).map Char.toLower == term.map Char.toLower
    && decide (i + term.length ≤ text.length)

/-- Whether the compiled regex (`\bterm\b` under the word-boundary strategy,
plain `term` otherwise, always with flags `gi`) matches at position `i`. -/
def regexMatchAt (cfg : HighlightConfig) (term text : List Char) (i : Nat) : Bool :=
  if cfg.wordBoundary then
    boundaryAt text i && ciMatchAt term text i && boundaryAt text (i + term.length)
  else
    ciMatchAt term text i

/-- The smallest match position `≥ start`, as `regex.exec` finds it with
`lastIndex = start`. -/
def execFind (cfg : HighlightConfig) (term text : List Char) (start : Nat) : Option Nat :=
  (List.range (text.length + 1)).find? (fun i => start ≤ i && regexMatchAt cfg term text i)

/-- The `while ((match = regex.exec(searchText)) !== null)` loop for one
term: successive match start positions, with `lastIndex` advancing past each
match and the explicit zero-length-match guard (`regex.lastIndex++`).  Fuel
bounds the loop (every iteration advances `lastIndex` by at least one). -/
def execLoop (cfg : HighlightConfig) (term text : List Char) : Nat → Nat → List Nat
  | 0, _ => []
  | fuel + 1, lastIndex =>
    match execFind cfg term text lastIndex with
    | none => []
    | some i =>
      let nextIndex := i + term.length
      let nextIndex := if i = nextIndex then nextIndex + 1 else nextIndex
      i :: execLoop cfg term text fuel nextIndex

/-- A `TermMatch`: canonical term, per-segment offsets, the owning segment
(the back-reference to the text node), and the confidence score. -/
structure TermMatch where
  term : String
  start : Nat
  stop : Nat
  seg : Nat
  confidence : ℚ
deriving DecidableEq, Repr

/-- The matcher registry: the `terms` set and the `aliases` map, both in
insertion order. -/
structure MatcherState where
  terms : List String
  aliases : List (String × List String)
deriving DecidableEq, Repr

/-- The empty registry (also the result of `clear()`). -/
def emptyMatcher : MatcherState := { terms := [], aliases := [] }

/-- `Set.add` — append only when absent. -/
def setAdd (l : List String) (x : String) : List String :=
  if l.contains x then l else l ++ [x]

/-- `Map.set` on the alias map. -/
def aliasSet (l : List (String × List String)) (k : String) (v : List String) :
    List (String × List String) :=
  if l.any (fun p => p.1 == k) then
    l.map (fun p => if p.1 == k then (k, v) else p)
  else
    l ++ [(k, v)]

/-- Case normalization applied by `addTerm`: lowercase unless the matcher is
case-sensitive. -/
def normalizeTerm (cfg : HighlightConfig) (s : String) : String :=
  if cfg.caseSensitive then s else String.mk (lowerStr s.data)

/-- `addTerm(term, aliases?)`: store the normalized term; record the
normalized aliases under it; add each alias as an independently searchable
term. -/
def addTerm (cfg : HighlightConfig) (tm : MatcherState) (term : String)
    (aliases : Option (List String)) : MatcherState :=
  let nt := normalizeTerm cfg term
  let tm1 : MatcherState := { tm with terms := setAdd tm.terms nt }
  match aliases with
  | none => tm1
  | some als =>
    let tm2 : MatcherState :=
      { tm1 with aliases := aliasSet tm1.aliases nt (als.map (normalizeTerm cfg)) }
    als.foldl
      (fun t a => { t with terms := setAdd t.terms (normalizeTerm cfg a) }) tm2

/-- `getCanonicalTerm(term)`: the first alias-map entry listing `term` as an
alias yields its canonical key; otherwise the term itself. -/
def getCanonicalTerm (tm : MatcherState) (term : String) : String :=
  match tm.aliases.find? (fun p => p.2.contains term) with
  | some p => p.1
  | none => term

/-- `calculateConfidence(term, matchedText)`: 1.0 on exact equality, 0.9 on
equality up to case, 0.8 otherwise. -/
def calculateConfidence (term matched : List Char) : ℚ :=
  if term == matched then 1
  else if lowerStr term == lowerStr matched then 9 / 10
  else 8 / 10

/-- `findTermsInText(text, textNode)`: lowercase the text unless
case-sensitive, then for each registered term (in insertion order) run the
`gi` regex scan; each hit records the canonical term, the per-segment
offsets, the owning segment, and the confidence of the matched slice of the
search text against the stored term. -/
def findTermsInText (cfg : HighlightConfig) (tm : MatcherState) (text : List Char)
    (seg : Nat) : List TermMatch :=
  let searchText := if cfg.caseSensitive then text else lowerStr text
  tm.terms.foldl
    (fun acc term =>
      let t := term.data
      acc ++ (execLoop cfg t searchText (searchText.length + 2) 0).map (fun i =>
        { term := getCanonicalTerm tm term,
          start := i,
          stop := i + t.length,
          seg := seg,
          confidence := calculateConfidence t ((searchText.drop i).take t.length) }))
    []

/-- `findMatches(element)`: scan the accepted text segments in document
order, concatenate the per-segment matches, then sort the whole list by
`start` (the final `matches.sort((a, b) => a.start - b.start)`; JavaScript's
sort is stable). -/
def findMatches (cfg : HighlightConfig) (tm : MatcherState) (segments : List (List Char)) :
    List TermMatch :=
  let all := (segments.enum.map (fun p => findTermsInText cfg tm p.2 p.1)).flatten
  sortByLe (fun a b => a.start ≤ b.start) all

/-! ## Pointer zone tracker (`pointer-engine.ts`) -/

/-- The classified pointer zone. -/
inductive Zone where
  | topCard
  | otherCard
  | trigger
  | none
deriving DecidableEq, Repr

/-- One element of the ordered hit-test stack under the pointer
(`getElementsAtPoint`, topmost first), abstracted to what `checkPointerZone`
reads off it: the registered card id of its closest `[data-card-id]`
ancestor (if that element is a registered card), and whether its closest
`[data-hover-term]` ancestor is a registered trigger. -/
structure Hit where
  cardId : Option Nat
  isTrigger : Bool
deriving DecidableEq, Repr

/-- The zone classification of `checkPointerZone`: off-viewport positions
are `none`; otherwise the first hit resolving to a registered card wins
(`top-card` iff it is the current top card), then any registered trigger,
then `none`. -/
def classifyZone (x y : Int) (hits : List Hit) (topCardId : Option Nat) : Zone :=
  if x < 0 ∨ y < 0 then Zone.none
  else
    match hits.findSome? (·.cardId) with
    | some cid => if some cid == topCardId then Zone.topCard else Zone.otherCard
    | Option.none => if hits.any (·.isTrigger) then Zone.trigger else Zone.none

/-- The tracker state visible to subscribers: the last pointer sample's
position and classified zone, plus the log of notifications delivered to a
subscribed listener. -/
structure TrackerState where
  lastX : Int
  lastY : Int
  overZone : Zone
  log : List Zone
deriving DecidableEq, Repr

/-- `setZone(zone)`: edge-triggered — mutate and notify the listeners only
when the zone actually changed. -/
def setZone (st : TrackerState) (z : Zone) : TrackerState :=
  if st.overZone ≠ z then { st with overZone := z, log := st.log ++ [z] } else st

/-- `subscribe(listener)`: the listener is immediately invoked once with the
current state (its zone is appended to the notification log). -/
def subscribe (st : TrackerState) : TrackerState :=
  { st with log := st.log ++ [st.overZone] }

/-- One pointer sample together with the abstract hit-test answer and top
card id at classification time. -/
structure Sample where
  x : Int
  y : Int
  hits : List Hit
  topCardId : Option Nat
deriving Repr

/-- Processing one sample through `updatePointer` and the scheduled
`checkPointerZone`: record the position, classify, and apply the
edge-triggered `setZone`.  (Frame coalescing and the micro-jitter skip only
elide classifications; every elided classification trivially produces no
notification, so the model classifies each sample.) -/
def processSample (st : TrackerState) (s : Sample) : TrackerState :=
  let st1 := { st with lastX := s.x, lastY := s.y }
  setZone st1 (classifyZone s.x s.y s.hits s.topCardId)

/-! ## Stack controller delay selection (`provider.tsx`) and defaults -/

/-- The delay-related behavior props the provider consumes (all optional:
`behavior?.cardInitialPopDelayMs`, etc.). -/
structure BehaviorProps where
  cardInitialPopDelayMs : Option Nat
  cardCascadePopDelayMs : Option Nat
deriving DecidableEq, Repr

/-- `behavior?.cardInitialPopDelayMs ?? 500` in `HoverKitProvider`. -/
def providerInitialDelay (b : BehaviorProps) : Nat :=
  b.cardInitialPopDelayMs.getD 500

/-- `behavior?.cardCascadePopDelayMs ?? 3000` in `HoverKitProvider`. -/
def providerCascadeDelay (b : BehaviorProps) : Nat :=
  b.cardCascadePopDelayMs.getD 3000

/-- The delay the pointer-state effect passes to `scheduleTopCardClose`:
`hasCascadedRef.current ? cardCascadePopDelayMs : cardInitialPopDelayMs`. -/
def scheduleDelay (hasCascaded : Bool) (b : BehaviorProps) : Nat :=
  if hasCascaded then providerCascadeDelay b else providerInitialDelay b

/-- The `HoverBehaviorConfigSchema` defaults for the two auto-close delays
(`cardInitialPopDelayMs: 1000`, `cardCascadePopDelayMs: 3000`). -/
def schemaInitialDelayDefault : Nat := 1000

/-- The schema default of `cardCascadePopDelayMs`. -/
def schemaCascadeDelayDefault : Nat := 3000

/-! ## Basic lemmas about the card map -/

theorem findCard_eq_some {cards : List CardState} {cid : Nat} {c : CardState}
    (h : findCard cards cid = some c) : c ∈ cards ∧ c.id = cid := by
  refine ⟨List.mem_of_find?_eq_some h, ?_⟩
  have := List.find?_some h
  simpa using this

theorem nodup_id_eq {cards : List CardState} (hnd : (cards.map (·.id)).Nodup)
    {c d : CardState} (hc : c ∈ cards) (hd : d ∈ cards) (h : c.id = d.id) : c = d :=
  List.inj_on_of_nodup_map hnd hc hd h

theorem findCard_mem {cards : List CardState} (hnd : (cards.map (·.id)).Nodup)
    {c : CardState} (hc : c ∈ cards) : findCard cards c.id = some c := by
  rcases h : findCard cards c.id with _ | d
  · exact absurd (List.find?_eq_none.mp h c hc) (by simp)
  · rcases findCard_eq_some h with ⟨hdmem, hdid⟩
    exact congrArg some (nodup_id_eq hnd hdmem hc hdid)

theorem findCard_isSome_iff {cards : List CardState} {cid : Nat} :
    (∃ c, findCard cards cid = some c) ↔ ∃ c ∈ cards, c.id = cid := by
  constructor
  · rintro ⟨c, h⟩
    exact ⟨c, (findCard_eq_some h).1, (findCard_eq_some h).2⟩
  · rintro ⟨c, hc, hid⟩
    rcases h : findCard cards cid with _ | d
    · exfalso
      have := List.find?_eq_none.mp h c hc
      simp [hid] at this
    · exact ⟨d, rfl⟩

theorem findCard_eq_none {cards : List CardState} {cid : Nat}
    (h : findCard cards cid = none) : ∀ c ∈ cards, c.id ≠ cid := by
  intro c hc hid
  have := List.find?_eq_none.mp h c hc
  simp [hid] at this

theorem WF.nodup {cards : List CardState} (h : WF cards) : (cards.map (·.id)).Nodup := h.1

theorem WF.levelOk {cards : List CardState} (h : WF cards) {c : CardState} (hc : c ∈ cards) :
    levelOkB cards c = true :=
  List.all_eq_true.mp h.2 c hc

theorem wf_root {cards : List CardState} (h : WF cards) {c : CardState} (hc : c ∈ cards)
    (hp : c.parentId = none) : c.level = 0 := by
  have hok := h.levelOk hc
  unfold levelOkB at hok
  rw [hp] at hok
  simpa using hok

theorem wf_parent {cards : List CardState} (h : WF cards) {c : CardState} (hc : c ∈ cards)
    {pid : Nat} (hp : c.parentId = some pid) :
    ∃ p, findCard cards pid = some p ∧ c.level = p.level + 1 := by
  have hok := h.levelOk hc
  unfold levelOkB at hok
  rw [hp] at hok
  have hok2 : (match findCard cards pid with
      | none => false
      | some p => (c.level == p.level + 1)) = true := hok
  rcases hfind : findCard cards pid with _ | p
  · rw [hfind] at hok2
    simp at hok2
  · rw [hfind] at hok2
    exact ⟨p, rfl, by simpa using hok2⟩

theorem wf_level_pos {cards : List CardState} (h : WF cards) {c : CardState} (hc : c ∈ cards)
    {pid : Nat} (hp : c.parentId = some pid) : 0 < c.level := by
  rcases wf_parent h hc hp with ⟨p, _, hl⟩
  omega

/-! ## Parent chains and the subtree relation -/

theorem desc_of_chain {cards : List CardState} :
    ∀ {fuel : Nat} {o : Option Nat} {r : Nat}, r ∈ chainUp cards fuel o →
      ∃ x, o = some x ∧ Desc cards r x := by
  intro fuel
  induction fuel with
  | zero =>
    intro o r h
    cases o <;> simp [chainUp] at h
  | succ fuel ih =>
    intro o r h
    cases o with
    | none => simp [chainUp] at h
    | some cid =>
      rw [chainUp] at h
      rcases List.mem_cons.mp h with h | h
      · exact ⟨cid, rfl, h ▸ Desc.refl⟩
      · rcases ih h with ⟨x, hx, hdesc⟩
        rcases hbind : findCard cards cid with _ | c
        · rw [hbind] at hx
          simp at hx
        · rw [hbind] at hx
          simp only [Option.some_bind] at hx
          rcases findCard_eq_some hbind with ⟨hmem, hid⟩
          exact ⟨cid, rfl, hid ▸ Desc.step hmem hx hdesc⟩

theorem chain_of_desc {cards : List CardState} (hwf : WF cards) {r x : Nat}
    (hdesc : Desc cards r x) :
    ∀ {fuel : Nat} {c : CardState}, findCard cards x = some c → c.level + 1 ≤ fuel →
      r ∈ chainUp cards fuel (some x) := by
  induction hdesc with
  | refl =>
    intro fuel c _ hfuel
    match fuel, hfuel with
    | fuel + 1, _ => rw [chainUp]; exact List.mem_cons_self _ _
  | @step c' p hmem hp hder ih =>
    intro fuel c hfind hfuel
    have hc'find : findCard cards c'.id = some c' := findCard_mem hwf.nodup hmem
    have hcc' : c = c' := by
      rcases findCard_eq_some hfind with ⟨hm, hid⟩
      exact nodup_id_eq hwf.nodup hm hmem hid
    rcases wf_parent hwf hmem hp with ⟨pc, hpcfind, hlevel⟩
    have hpos : 0 < c'.level := by omega
    match fuel, hfuel with
    | fuel + 1, hfuel =>
      rw [chainUp, hc'find]
      simp only [Option.some_bind, hp]
      refine List.mem_cons_of_mem _ (ih hpcfind ?_)
      subst hcc'
      omega

theorem chain_exact {cards : List CardState} (hwf : WF cards) :
    ∀ (lvl : Nat) (x : Nat) (c : CardState), findCard cards x = some c → c.level = lvl →
      ∀ fuel, lvl + 1 ≤ fuel →
        (chainUp cards fuel (some x)).length = lvl + 1 ∧
        (chainUp cards fuel (some x)).Nodup ∧
        ∀ y ∈ chainUp cards fuel (some x), ∃ cy ∈ cards, cy.id = y ∧ cy.level ≤ lvl := by
  intro lvl
  induction lvl with
  | zero =>
    intro x c hfind hlvl fuel hfuel
    rcases findCard_eq_some hfind with ⟨hmem, hid⟩
    match fuel, hfuel with
    | fuel + 1, _ =>
      have hpar : c.parentId = none := by
        rcases hpp : c.parentId with _ | pid
        · rfl
        · have := wf_level_pos hwf hmem hpp
          omega
      rw [chainUp, hfind]
      simp only [Option.some_bind, hpar, chainUp]
      refine ⟨rfl, by simp, ?_⟩
      intro y hy
      simp only [List.mem_singleton] at hy
      exact ⟨c, hmem, hid.trans hy.symm, by omega⟩
  | succ lvl ih =>
    intro x c hfind hlvl fuel hfuel
    rcases findCard_eq_some hfind with ⟨hmem, hid⟩
    match fuel, hfuel with
    | fuel + 1, hfuel =>
      rcases hpp : c.parentId with _ | pid
      · have := wf_root hwf hmem hpp
        omega
      · rcases wf_parent hwf hmem hpp with ⟨pc, hpcfind, hplevel⟩
        have hpclvl : pc.level = lvl := by omega
        rcases ih pid pc hpcfind hpclvl fuel (by omega) with ⟨hlen, hnd, hmemb⟩
        rw [chainUp, hfind]
        simp only [Option.some_bind, hpp]
        refine ⟨by simp [hlen], ?_, ?_⟩
        · refine List.nodup_cons.mpr ⟨?_, hnd⟩
          intro hx
          rcases hmemb x hx with ⟨cy, hcymem, hcyid, hcylvl⟩
          have hcyc : cy = c := nodup_id_eq hwf.nodup hcymem hmem (hcyid.trans hid.symm)
          rw [hcyc] at hcylvl
          omega
        · intro y hy
          rcases List.mem_cons.mp hy with hy | hy
          · exact ⟨c, hmem, hid.trans hy.symm, by omega⟩
          · rcases hmemb y hy with ⟨cy, hcymem, hcyid, hcylvl⟩
            exact ⟨cy, hcymem, hcyid, by omega⟩

theorem level_lt_length {cards : List CardState} (hwf : WF cards) {x : Nat} {c : CardState}
    (hfind : findCard cards x = some c) : c.level < cards.length := by
  rcases chain_exact hwf c.level x c hfind rfl (c.level + 1) (le_refl _)
    with ⟨hlen, hnd, hmemb⟩
  have hsub : chainUp cards (c.level + 1) (some x) ⊆ cards.map (·.id) := by
    intro y hy
    rcases hmemb y hy with ⟨cy, hcymem, hcyid, _⟩
    exact List.mem_map.mpr ⟨cy, hcymem, hcyid⟩
  have := (hnd.subperm hsub).length_le
  rw [hlen, List.length_map] at this
  omega

theorem descB_true_iff {cards : List CardState} (hwf : WF cards) {r x : Nat} :
    descB cards r x = true ↔ Desc cards r x := by
  constructor
  · intro h
    have hmem : r ∈ chainUp cards (cards.length + 1) (some x) := by
      unfold descB at h
      simpa using h
    rcases desc_of_chain hmem with ⟨x', hx', hdesc⟩
    cases hx'
    exact hdesc
  · intro h
    unfold descB
    cases h with
    | refl =>
      have : r ∈ chainUp cards (cards.length + 1) (some r) := by
        rw [chainUp]
        exact List.mem_cons_self _ _
      simpa using this
    | @step c p hmem hp hder =>
      have hfind : findCard cards c.id = some c := findCard_mem hwf.nodup hmem
      have hlvl : c.level < cards.length := level_lt_length hwf hfind
      have : r ∈ chainUp cards (cards.length + 1) (some c.id) :=
        chain_of_desc hwf (Desc.step hmem hp hder) hfind (by omega)
      simpa using this

theorem desc_trans {cards : List CardState} {r y x : Nat}
    (h1 : Desc cards r y) (h2 : Desc cards y x) : Desc cards r x := by
  induction h2 with
  | refl => exact h1
  | step hmem hp _ ih => exact Desc.step hmem hp ih

theorem desc_card_of_ne {cards : List CardState} {r x : Nat} (h : Desc cards r x)
    (hne : x ≠ r) : ∃ c ∈ cards, c.id = x := by
  cases h with
  | refl => exact absurd rfl hne
  | step hmem _ _ => exact ⟨_, hmem, rfl⟩

theorem desc_level_le {cards : List CardState} (hwf : WF cards) {r x : Nat}
    (h : Desc cards r x) :
    r = x ∨ ∃ cx cr, findCard cards x = some cx ∧ findCard cards r = some cr ∧
      cr.level < cx.level := by
  induction h with
  | refl => exact Or.inl rfl
  | @step c p hmem hp hder ih =>
    right
    have hcfind : findCard cards c.id = some c := findCard_mem hwf.nodup hmem
    rcases wf_parent hwf hmem hp with ⟨pc, hpcfind, hlevel⟩
    rcases ih with heq | ⟨cx, cr, hcx, hcr, hlt⟩
    · exact ⟨c, pc, hcfind, heq ▸ hpcfind, by omega⟩
    · rw [hpcfind] at hcx
      cases hcx
      exact ⟨c, cr, hcfind, hcr, by omega⟩

theorem desc_antisymm {cards : List CardState} (hwf : WF cards) {a b : Nat}
    (h1 : Desc cards a b) (h2 : Desc cards b a) : a = b := by
  rcases desc_level_le hwf h1 with heq | ⟨cx, cr, hcx, hcr, hlt⟩
  · exact heq
  · rcases desc_level_le hwf h2 with heq | ⟨cy, cs, hcy, hcs, hlt'⟩
    · exact heq.symm
    · rw [hcx] at hcs
      rw [hcr] at hcy
      cases hcs
      cases hcy
      omega

theorem desc_inv {cards : List CardState} {b x : Nat} (h : Desc cards b x) :
    x = b ∨ ∃ c ∈ cards, c.id = x ∧ ∃ p, c.parentId = some p ∧ Desc cards b p := by
  cases h with
  | refl => exact Or.inl rfl
  | @step c p hmem hp hder => exact Or.inr ⟨c, hmem, rfl, p, hp, hder⟩

theorem desc_linear {cards : List CardState} (hnd : (cards.map (·.id)).Nodup) {a b x : Nat}
    (ha : Desc cards a x) (hb : Desc cards b x) : Desc cards a b ∨ Desc cards b a := by
  induction ha with
  | refl => exact Or.inr hb
  | @step c p hmem hp hder ih =>
    rcases desc_inv hb with heq | ⟨c', hmem', hcid, p', hp', hder'⟩
    · exact Or.inl (heq ▸ Desc.step hmem hp hder)
    · have hcc' : c' = c := nodup_id_eq hnd hmem' hmem hcid
      subst hcc'
      rw [hp] at hp'
      cases hp'
      exact ih hder'

theorem desc_unfold {cards : List CardState} {rid x : Nat} :
    Desc cards rid x ↔
      x = rid ∨ ∃ ch ∈ cards, ch.parentId = some rid ∧ Desc cards ch.id x := by
  constructor
  · intro h
    induction h with
    | refl => exact Or.inl rfl
    | @step c p hmem hp hder ih =>
      rcases ih with heq | ⟨ch, hchmem, hchp, hchdesc⟩
      · exact Or.inr ⟨c, hmem, heq ▸ hp, Desc.refl⟩
      · exact Or.inr ⟨ch, hchmem, hchp, Desc.step hmem hp hchdesc⟩
  · rintro (rfl | ⟨ch, hchmem, hchp, hchdesc⟩)
    · exact Desc.refl
    · exact desc_trans (Desc.step hchmem hchp Desc.refl) hchdesc

/-! ## Subtrees and filtering -/

theorem desc_of_filter {cards : List CardState} {P : CardState → Bool} {r x : Nat}
    (h : Desc (cards.filter P) r x) : Desc cards r x := by
  induction h with
  | refl => exact Desc.refl
  | step hmem hp _ ih => exact Desc.step (List.mem_filter.mp hmem).1 hp ih

theorem desc_filter_of_kept {cards : List CardState} {P : CardState → Bool} {r x : Nat}
    (hkeep : ∀ c ∈ cards, Desc cards r c.id → P c = true)
    (h : Desc cards r x) : Desc (cards.filter P) r x := by
  induction h with
  | refl => exact Desc.refl
  | @step c p hmem hp hder ih =>
    have hcmem : c ∈ cards.filter P :=
      List.mem_filter.mpr ⟨hmem, hkeep c hmem (Desc.step hmem hp hder)⟩
    exact Desc.step hcmem hp ih

theorem nodup_filter_id {cards : List CardState} (hnd : (cards.map (·.id)).Nodup)
    (P : CardState → Bool) : ((cards.filter P).map (·.id)).Nodup := by
  have hsub : (List.filter P cards).Sublist cards := List.filter_sublist cards
  exact (hsub.map (·.id)).nodup hnd

theorem wf_filter {cards : List CardState} (hwf : WF cards) {P : CardState → Bool}
    (hpar : ∀ c ∈ cards, P c = true → ∀ pid, c.parentId = some pid →
      ∀ p ∈ cards, p.id = pid → P p = true) :
    WF (cards.filter P) := by
  refine ⟨nodup_filter_id hwf.nodup P, List.all_eq_true.mpr ?_⟩
  intro c hc
  rcases List.mem_filter.mp hc with ⟨hcmem, hcP⟩
  unfold levelOkB
  rcases hpp : c.parentId with _ | pid
  · show (c.level == 0) = true
    simpa using wf_root hwf hcmem hpp
  · rcases wf_parent hwf hcmem hpp with ⟨p, hpfind, hlevel⟩
    rcases findCard_eq_some hpfind with ⟨hpmem, hpid⟩
    have hPp : P p = true := hpar c hcmem hcP pid hpp p hpmem hpid
    have hpfilter : p ∈ cards.filter P := List.mem_filter.mpr ⟨hpmem, hPp⟩
    have hfound : findCard (cards.filter P) pid = some p := by
      have := findCard_mem (nodup_filter_id hwf.nodup P) hpfilter
      rwa [hpid] at this
    show (match findCard (List.filter P cards) pid with
          | none => false
          | some p => (c.level == p.level + 1)) = true
    rw [hfound]
    simpa using hlevel

/-! ## The behavior of `closeCard` -/

/-- The close-event ids of an event list, in order. -/
def closesOf (evs : List EngineEvent) : List Nat :=
  evs.filterMap (fun e =>
    match e with
    | EngineEvent.cardClose x => some x
    | _ => none)

/-- The full specification of one `closeCard(rid)` call from state `st`:
exactly the subtree of `rid` is removed from the card map, the counter is
untouched, and the appended events are close events, one per removed id,
with every removed card's close emitted strictly before its parent's. -/
def CloseResult (st : EngineState) (rid : Nat) (out : EngineState) : Prop :=
  out.cards = st.cards.filter (fun c => !(descB st.cards rid c.id)) ∧
  out.counter = st.counter ∧
  ∃ evs, out.events = st.events ++ evs ∧
    (∀ e ∈ evs, ∃ x, e = EngineEvent.cardClose x) ∧
    (closesOf evs).Nodup ∧
    (∀ x, x ∈ closesOf evs ↔ ∃ c ∈ st.cards, c.id = x ∧ Desc st.cards rid x) ∧
    (∀ p ∈ st.cards, Desc st.cards rid p.id →
      ∃ pre suf, closesOf evs = pre ++ p.id :: suf ∧
        ∀ c ∈ st.cards, c.parentId = some p.id → c.id ∈ pre)

theorem desc_false_of_absent {cards : List CardState} (hwf : WF cards) {rid x : Nat}
    (habs : findCard cards rid = none) {c : CardState} (hc : c ∈ cards) (hcx : c.id = x)
    (hdesc : Desc cards rid x) : False := by
  rcases desc_unfold.mp hdesc with heq | ⟨ch, hchmem, hchp, _⟩
  · exact findCard_eq_none habs c hc (hcx.trans heq)
  · rcases wf_parent hwf hchmem hchp with ⟨p, hpfind, _⟩
    rw [habs] at hpfind
    exact Option.noConfusion hpfind

theorem closeResult_absent {st : EngineState} {rid : Nat} (hwf : WF st.cards)
    (habs : findCard st.cards rid = none) : CloseResult st rid st := by
  refine ⟨?_, rfl, [], by simp, by simp, by simp [closesOf], ?_, ?_⟩
  · have : ∀ c ∈ st.cards, (!(descB st.cards rid c.id)) = true := by
      intro c hc
      simp only [Bool.not_eq_true']
      rcases h : descB st.cards rid c.id with _ | _
      · rfl
      · exact absurd ((descB_true_iff hwf).mp h)
          (fun hd => desc_false_of_absent hwf habs hc rfl hd)
    exact (List.filter_eq_self.mpr this).symm
  · intro x
    simp only [closesOf, List.filterMap_nil, List.not_mem_nil, false_iff]
    rintro ⟨c, hc, hcx, hdesc⟩
    exact desc_false_of_absent hwf habs hc hcx hdesc
  · intro p hp hdesc
    exact absurd hdesc (fun hd => desc_false_of_absent hwf habs hp rfl hd)

theorem sibling_levels {L : List CardState} (hwf : WF L) {rid : Nat} {card ch : CardState}
    (hcard : findCard L rid = some card) (hch : ch ∈ L) (hchp : ch.parentId = some rid) :
    ch.level = card.level + 1 := by
  rcases wf_parent hwf hch hchp with ⟨pc, hpcfind, hlevel⟩
  rw [hcard] at hpcfind
  cases hpcfind
  exact hlevel

theorem sibling_subtrees_disjoint {L : List CardState} (hwf : WF L) {rid : Nat}
    {card ch ch' : CardState} (hcard : findCard L rid = some card)
    (hch : ch ∈ L) (hchp : ch.parentId = some rid)
    (hch' : ch' ∈ L) (hchp' : ch'.parentId = some rid) (hne : ch.id ≠ ch'.id)
    {x : Nat} (h1 : Desc L ch.id x) (h2 : Desc L ch'.id x) : False := by
  have hlin := desc_linear hwf.nodup h1 h2
  have hl1 : ch.level = card.level + 1 := sibling_levels hwf hcard hch hchp
  have hl2 : ch'.level = card.level + 1 := sibling_levels hwf hcard hch' hchp'
  have hchfind : findCard L ch.id = some ch := findCard_mem hwf.nodup hch
  have hchfind' : findCard L ch'.id = some ch' := findCard_mem hwf.nodup hch'
  rcases hlin with h | h
  · rcases desc_level_le hwf h with heq | ⟨cx, cr, hcx, hcr, hlt⟩
    · exact hne heq
    · rw [hchfind'] at hcx
      rw [hchfind] at hcr
      cases hcx
      cases hcr
      omega
  · rcases desc_level_le hwf h with heq | ⟨cx, cr, hcx, hcr, hlt⟩
    · exact hne heq.symm
    · rw [hchfind] at hcx
      rw [hchfind'] at hcr
      cases hcx
      cases hcr
      omega

theorem child_not_root_subtree {L : List CardState} (hwf : WF L) {rid : Nat}
    {card ch : CardState} (hcard : findCard L rid = some card)
    (hch : ch ∈ L) (hchp : ch.parentId = some rid) (h : Desc L ch.id rid) : False := by
  have hl : ch.level = card.level + 1 := sibling_levels hwf hcard hch hchp
  have hchfind : findCard L ch.id = some ch := findCard_mem hwf.nodup hch
  rcases desc_level_le hwf h with heq | ⟨cx, cr, hcx, hcr, hlt⟩
  · subst heq
    rcases findCard_eq_some hcard with ⟨hcm, hci⟩
    have : card = ch := nodup_id_eq hwf.nodup hcm hch hci
    rw [this] at hl
    omega
  · rw [hcard] at hcx
    rw [hchfind] at hcr
    cases hcx
    cases hcr
    omega

theorem closeFold (fuel : Nat)
    (IH : ∀ (s : EngineState) (x : Nat), WF s.cards →
      (∀ c, findCard s.cards x = some c → s.cards.length + 1 ≤ fuel + c.level) →
      CloseResult s x (closeCard fuel s x))
    (L : List CardState) (hwf : WF L) (rid : Nat) (card : CardState)
    (hcard : findCard L rid = some card)
    (hlen : L.length + 1 ≤ (fuel + 1) + card.level) :
    ∀ (cs : List CardState) (s : EngineState) (P : CardState → Bool),
      s.cards = L.filter P →
      (∀ c ∈ cs, c ∈ L ∧ c.parentId = some rid) →
      ((cs.map (·.id)).Nodup) →
      (∀ c ∈ L, P c = true → ∀ pid, c.parentId = some pid → ∀ p ∈ L, p.id = pid → P p = true) →
      (∀ ch ∈ cs, ∀ d ∈ L, Desc L ch.id d.id → P d = true) →
      (cs.foldl (fun s child => closeCard fuel s child.id) s).cards
          = L.filter (fun c => P c && !(cs.any (fun ch => descB L ch.id c.id))) ∧
      (cs.foldl (fun s child => closeCard fuel s child.id) s).counter = s.counter ∧
      ∃ evs, (cs.foldl (fun s child => closeCard fuel s child.id) s).events = s.events ++ evs ∧
        (∀ e ∈ evs, ∃ x, e = EngineEvent.cardClose x) ∧
        (closesOf evs).Nodup ∧
        (∀ x, x ∈ closesOf evs ↔ ∃ ch ∈ cs, ∃ c ∈ L, c.id = x ∧ Desc L ch.id x) ∧
        (∀ p ∈ L, (∃ ch ∈ cs, Desc L ch.id p.id) →
          ∃ pre suf, closesOf evs = pre ++ p.id :: suf ∧
            ∀ c ∈ L, c.parentId = some p.id → c.id ∈ pre) := by
  intro cs
  induction cs with
  | nil =>
    intro s P hs _ _ _ _
    refine ⟨?_, rfl, [], by simp, by simp, by simp [closesOf], by simp [closesOf], by simp⟩
    rw [List.foldl_nil, hs]
    apply List.filter_congr
    intro c _
    simp
  | cons ch cs ihcs =>
    intro s P hs hsub hndcs hP hkeep
    obtain ⟨hchL, hchp⟩ := hsub ch (List.mem_cons_self _ _)
    have hkeepch : ∀ d ∈ L, Desc L ch.id d.id → P d = true :=
      hkeep ch (List.mem_cons_self _ _)
    have hchP : P ch = true := hkeepch ch hchL Desc.refl
    have hchs : ch ∈ s.cards := hs ▸ List.mem_filter.mpr ⟨hchL, hchP⟩
    have hwfs : WF s.cards := hs ▸ wf_filter hwf hP
    have hchfind : findCard s.cards ch.id = some ch := findCard_mem hwfs.nodup hchs
    have hchlvl : ch.level = card.level + 1 := sibling_levels hwf hcard hchL hchp
    have hbound : ∀ c', findCard s.cards ch.id = some c' →
        s.cards.length + 1 ≤ fuel + c'.level := by
      intro c' hc'
      rw [hchfind] at hc'
      cases hc'
      have hsl : s.cards.length ≤ L.length := by
        rw [hs]
        exact L.length_filter_le _
      omega
    obtain ⟨hcards₁, hctr₁, evs₁, hev₁, hcl₁, hnd₁, hmem₁, hord₁⟩ := IH s ch.id hwfs hbound
    rw [List.map_cons, List.nodup_cons] at hndcs
    obtain ⟨hchnotin, hndcs'⟩ := hndcs
    have hsib : ∀ ch' ∈ cs, ∀ x : Nat, Desc L ch.id x → Desc L ch'.id x → False := by
      intro ch' hch' x h1 h2
      obtain ⟨hch'L, hch'p⟩ := hsub ch' (List.mem_cons_of_mem _ hch')
      have hne : ch.id ≠ ch'.id := by
        intro he
        exact hchnotin (he ▸ List.mem_map.mpr ⟨ch', hch', rfl⟩)
      exact sibling_subtrees_disjoint hwf hcard hchL hchp hch'L hch'p hne h1 h2
    have hdesc_up : ∀ x : Nat, Desc L ch.id x → Desc s.cards ch.id x := by
      intro x h
      rw [hs]
      exact desc_filter_of_kept hkeepch h
    have hdesc_down : ∀ x : Nat, Desc s.cards ch.id x → Desc L ch.id x := by
      intro x h
      rw [hs] at h
      exact desc_of_filter h
    have hdescB_eq : ∀ x : Nat, descB s.cards ch.id x = descB L ch.id x := by
      intro x
      rcases h1 : descB s.cards ch.id x with _ | _ <;>
        rcases h2 : descB L ch.id x with _ | _
      · rfl
      · have := (descB_true_iff hwfs).mpr (hdesc_up x ((descB_true_iff hwf).mp h2))
        rw [h1] at this
        exact Bool.noConfusion this
      · have := (descB_true_iff hwf).mpr (hdesc_down x ((descB_true_iff hwfs).mp h1))
        rw [h2] at this
        exact Bool.noConfusion this
      · rfl
    have hcards₁' : (closeCard fuel s ch.id).cards
        = L.filter (fun c => P c && !(descB L ch.id c.id)) := by
      rw [hcards₁, hs, List.filter_filter]
      apply List.filter_congr
      intro c _
      have h := hdescB_eq c.id
      rw [hs] at h
      rw [h]
      cases P c <;> cases descB L ch.id c.id <;> rfl
    have hmem₁' : ∀ x, x ∈ closesOf evs₁ ↔ ∃ c ∈ L, c.id = x ∧ Desc L ch.id x := by
      intro x
      rw [hmem₁ x]
      constructor
      · rintro ⟨c, hc, hcx, hd⟩
        rw [hs] at hc
        exact ⟨c, (List.mem_filter.mp hc).1, hcx, hdesc_down x hd⟩
      · rintro ⟨c, hc, hcx, hd⟩
        have hPc : P c = true := hkeepch c hc (hcx ▸ hd)
        exact ⟨c, hs ▸ List.mem_filter.mpr ⟨hc, hPc⟩, hcx, hdesc_up x hd⟩
    have hord₁' : ∀ p ∈ L, Desc L ch.id p.id →
        ∃ pre suf, closesOf evs₁ = pre ++ p.id :: suf ∧
          ∀ c ∈ L, c.parentId = some p.id → c.id ∈ pre := by
      intro p hp hd
      have hPp : P p = true := hkeepch p hp hd
      obtain ⟨pre, suf, hsplit, hchild⟩ :=
        hord₁ p (hs ▸ List.mem_filter.mpr ⟨hp, hPp⟩) (hdesc_up p.id hd)
      refine ⟨pre, suf, hsplit, ?_⟩
      intro c hc hcp
      have hdc : Desc L ch.id c.id := Desc.step hc hcp hd
      have hPc : P c = true := hkeepch c hc hdc
      exact hchild c (hs ▸ List.mem_filter.mpr ⟨hc, hPc⟩) hcp
    have hP₁ : ∀ c ∈ L, (P c && !(descB L ch.id c.id)) = true →
        ∀ pid, c.parentId = some pid → ∀ p ∈ L, p.id = pid →
          (P p && !(descB L ch.id p.id)) = true := by
      intro c hc hPc pid hcp p hp hpid
      obtain ⟨hPc1, hPc2⟩ := Bool.and_eq_true_iff.mp hPc
      refine Bool.and_eq_true_iff.mpr ⟨hP c hc hPc1 pid hcp p hp hpid, ?_⟩
      rcases hdB : descB L ch.id p.id with _ | _
      · rfl
      · exfalso
        have hdp : Desc L ch.id pid := hpid ▸ (descB_true_iff hwf).mp hdB
        have hdc : Desc L ch.id c.id := Desc.step hc hcp hdp
        have := (descB_true_iff hwf).mpr hdc
        rw [this] at hPc2
        exact Bool.noConfusion hPc2
    have hkeep₁ : ∀ ch' ∈ cs, ∀ d ∈ L, Desc L ch'.id d.id →
        (P d && !(descB L ch.id d.id)) = true := by
      intro ch' hch' d hd hdd
      refine Bool.and_eq_true_iff.mpr
        ⟨hkeep ch' (List.mem_cons_of_mem _ hch') d hd hdd, ?_⟩
      rcases hdB : descB L ch.id d.id with _ | _
      · rfl
      · exact absurd ((descB_true_iff hwf).mp hdB) (fun h => hsib ch' hch' d.id h hdd)
    obtain ⟨hcards₂, hctr₂, evs₂, hev₂, hcl₂, hnd₂, hmem₂, hord₂⟩ :=
      ihcs (closeCard fuel s ch.id) (fun c => P c && !(descB L ch.id c.id)) hcards₁'
        (fun c hc => hsub c (List.mem_cons_of_mem _ hc)) hndcs' hP₁ hkeep₁
    rw [List.foldl_cons]
    have hclapp : closesOf (evs₁ ++ evs₂) = closesOf evs₁ ++ closesOf evs₂ := by
      unfold closesOf
      exact List.filterMap_append _ _ _
    have hdisj : ∀ x, x ∈ closesOf evs₁ → x ∈ closesOf evs₂ → False := by
      intro x h1 h2
      obtain ⟨c, hc, hcx, hd⟩ := (hmem₁' x).mp h1
      obtain ⟨ch', hch', c', hc', hcx', hd'⟩ := (hmem₂ x).mp h2
      exact hsib ch' hch' x hd hd'
    refine ⟨?_, ?_, evs₁ ++ evs₂, ?_, ?_, ?_, ?_, ?_⟩
    · rw [hcards₂]
      apply List.filter_congr
      intro c _
      simp only [List.any_cons, Bool.not_or]
      cases P c <;> cases descB L ch.id c.id <;>
        cases cs.any (fun ch => descB L ch.id c.id) <;> rfl
    · rw [hctr₂, hctr₁]
    · rw [hev₂, hev₁, List.append_assoc]
    · intro e he
      rcases List.mem_append.mp he with h | h
      · exact hcl₁ e h
      · exact hcl₂ e h
    · rw [hclapp]
      exact List.Nodup.append hnd₁ hnd₂ (fun x h1 h2 => hdisj x h1 h2)
    · intro x
      rw [hclapp, List.mem_append, hmem₁' x, hmem₂ x]
      constructor
      · rintro (⟨c, hc, hcx, hd⟩ | ⟨ch', hch', c, hc, hcx, hd⟩)
        · exact ⟨ch, List.mem_cons_self _ _, c, hc, hcx, hd⟩
        · exact ⟨ch', List.mem_cons_of_mem _ hch', c, hc, hcx, hd⟩
      · rintro ⟨ch', hch', c, hc, hcx, hd⟩
        rcases List.mem_cons.mp hch' with heq | hmemcs
        · subst heq
          exact Or.inl ⟨c, hc, hcx, hd⟩
        · exact Or.inr ⟨ch', hmemcs, c, hc, hcx, hd⟩
    · rintro p hp ⟨ch', hch', hdp⟩
      rcases List.mem_cons.mp hch' with heq | hmemcs
      · subst heq
        obtain ⟨pre, suf, hsplit, hchild⟩ := hord₁' p hp hdp
        refine ⟨pre, suf ++ closesOf evs₂, ?_, hchild⟩
        rw [hclapp, hsplit, List.append_assoc, List.cons_append]
      · obtain ⟨pre₂, suf₂, hsplit₂, hchild₂⟩ := hord₂ p hp ⟨ch', hmemcs, hdp⟩
        refine ⟨closesOf evs₁ ++ pre₂, suf₂, ?_, ?_⟩
        · rw [hclapp, hsplit₂, ← List.append_assoc]
        · intro c hc hcp
          exact List.mem_append.mpr (Or.inr (hchild₂ c hc hcp))

theorem closeCard_go : ∀ (fuel : Nat) (st : EngineState) (rid : Nat),
    WF st.cards →
    (∀ c, findCard st.cards rid = some c → st.cards.length + 1 ≤ fuel + c.level) →
    CloseResult st rid (closeCard fuel st rid) := by
  intro fuel
  induction fuel with
  | zero =>
    intro st rid hwf hbound
    rcases hfind : findCard st.cards rid with _ | card
    · rw [closeCard]
      exact closeResult_absent hwf hfind
    · have h1 := hbound card hfind
      have h2 := level_lt_length hwf hfind
      omega
  | succ fuel ih =>
    intro st rid hwf hbound
    rcases hfind : findCard st.cards rid with _ | card
    · have hid : closeCard (fuel + 1) st rid = st := by
        rw [closeCard, hfind]
      rw [hid]
      exact closeResult_absent hwf hfind
    · rcases findCard_eq_some hfind with ⟨hcardmem, hcardid⟩
      have hlen2 : st.cards.length + 1 ≤ (fuel + 1) + card.level := hbound card hfind
      have hchsub : ∀ c ∈ st.cards.filter (fun c => c.parentId == some rid),
          c ∈ st.cards ∧ c.parentId = some rid := by
        intro c hc
        rcases List.mem_filter.mp hc with ⟨h1, h2⟩
        exact ⟨h1, by simpa using h2⟩
      have hchmem : ∀ c ∈ st.cards, c.parentId = some rid →
          c ∈ st.cards.filter (fun c => c.parentId == some rid) := by
        intro c hc hcp
        exact List.mem_filter.mpr ⟨hc, by simpa using hcp⟩
      have hfold := closeFold fuel ih st.cards hwf rid card hfind hlen2
        (st.cards.filter (fun c => c.parentId == some rid)) st (fun _ => true)
        (List.filter_eq_self.mpr (fun c _ => rfl)).symm
        hchsub (nodup_filter_id hwf.nodup _)
        (fun c _ _ pid _ p _ _ => rfl)
        (fun ch _ d _ _ => rfl)
      obtain ⟨hcards₂, hctr₂, evs', hev', hcl', hnd', hmem', hord'⟩ := hfold
      have hc_cards : (closeCard (fuel + 1) st rid).cards
          = ((st.cards.filter (fun c => c.parentId == some rid)).foldl
              (fun s child => closeCard fuel s child.id) st).cards.filter
                (fun c => !(c.id == rid)) := by
        rw [closeCard, hfind]
      have hc_events : (closeCard (fuel + 1) st rid).events
          = ((st.cards.filter (fun c => c.parentId == some rid)).foldl
              (fun s child => closeCard fuel s child.id) st).events
            ++ [EngineEvent.cardClose rid] := by
        rw [closeCard, hfind]
      have hc_counter : (closeCard (fuel + 1) st rid).counter
          = ((st.cards.filter (fun c => c.parentId == some rid)).foldl
              (fun s child => closeCard fuel s child.id) st).counter := by
        rw [closeCard, hfind]
      have hdesc_root_child : ∀ ch ∈ st.cards.filter (fun c => c.parentId == some rid),
          Desc st.cards rid ch.id := by
        intro ch hch
        rcases hchsub ch hch with ⟨h1, h2⟩
        exact Desc.step h1 h2 Desc.refl
      have heq : ∀ c ∈ st.cards, descB st.cards rid c.id
          = ((c.id == rid) ||
             (st.cards.filter (fun c => c.parentId == some rid)).any
               (fun ch => descB st.cards ch.id c.id)) := by
        intro c hc
        apply Bool.coe_iff_coe.mp
        constructor
        · intro hd
          rw [Bool.or_eq_true_iff]
          rcases desc_unfold.mp ((descB_true_iff hwf).mp hd)
            with hcid | ⟨ch, hchm, hchp, hchd⟩
          · exact Or.inl (by simpa using hcid)
          · refine Or.inr (List.any_eq_true.mpr ⟨ch, hchmem ch hchm hchp, ?_⟩)
            exact (descB_true_iff hwf).mpr hchd
        · intro hrhs
          rcases Bool.or_eq_true_iff.mp hrhs with h | h
          · have hcid : c.id = rid := by simpa using h
            refine (descB_true_iff hwf).mpr ?_
            rw [hcid]
            exact Desc.refl
          · rcases List.any_eq_true.mp h with ⟨ch, hch, hchd⟩
            exact (descB_true_iff hwf).mpr
              (desc_trans (hdesc_root_child ch hch) ((descB_true_iff hwf).mp hchd))
      refine ⟨?_, ?_, evs' ++ [EngineEvent.cardClose rid], ?_, ?_, ?_, ?_, ?_⟩
      · rw [hc_cards, hcards₂, List.filter_filter]
        apply List.filter_congr
        intro c hc
        rw [heq c hc]
        cases c.id == rid <;>
          cases (st.cards.filter (fun c => c.parentId == some rid)).any
            (fun ch => descB st.cards ch.id c.id) <;> rfl
      · rw [hc_counter, hctr₂]
      · rw [hc_events, hev', List.append_assoc]
      · intro e he
        rcases List.mem_append.mp he with h | h
        · exact hcl' e h
        · exact ⟨rid, by simpa using h⟩
      · have hsingle : closesOf (evs' ++ [EngineEvent.cardClose rid])
            = closesOf evs' ++ [rid] := by
          unfold closesOf
          rw [List.filterMap_append]
          rfl
        rw [hsingle]
        refine List.Nodup.append hnd' (by simp) ?_
        intro x h1 h2
        have hx : x = rid := by simpa using h2
        subst hx
        rcases (hmem' x).mp h1 with ⟨ch, hch, c, hcm, hcx, hd⟩
        rcases hchsub ch hch with ⟨hchL, hchp⟩
        exact child_not_root_subtree hwf hfind hchL hchp hd
      · intro x
        have hsingle : closesOf (evs' ++ [EngineEvent.cardClose rid])
            = closesOf evs' ++ [rid] := by
          unfold closesOf
          rw [List.filterMap_append]
          rfl
        rw [hsingle, List.mem_append, hmem' x, List.mem_singleton]
        constructor
        · rintro (⟨ch, hch, c, hcm, hcx, hd⟩ | rfl)
          · rcases hchsub ch hch with ⟨hchL, hchp⟩
            exact ⟨c, hcm, hcx, desc_trans (Desc.step hchL hchp Desc.refl) hd⟩
          · exact ⟨card, hcardmem, hcardid, Desc.refl⟩
        · rintro ⟨c, hcm, hcx, hd⟩
          rcases desc_unfold.mp hd with hcid | ⟨ch, hchm, hchp, hchd⟩
          · exact Or.inr hcid
          · exact Or.inl ⟨ch, hchmem ch hchm hchp, c, hcm, hcx, hchd⟩
      · intro p hp hdp
        have hsingle : closesOf (evs' ++ [EngineEvent.cardClose rid])
            = closesOf evs' ++ [rid] := by
          unfold closesOf
          rw [List.filterMap_append]
          rfl
        rcases desc_unfold.mp hdp with hpid | ⟨ch, hchm, hchp, hchd⟩
        · have hpcard : p = card := nodup_id_eq hwf.nodup hp hcardmem (hpid.trans hcardid.symm)
          refine ⟨closesOf evs', [], ?_, ?_⟩
          · rw [hsingle, hpid]
          · intro c hc hcp
            rw [hpid] at hcp
            exact (hmem' c.id).mpr ⟨c, hchmem c hc hcp, c, hc, rfl, Desc.refl⟩
        · obtain ⟨pre₂, suf₂, hsplit₂, hchild₂⟩ :=
            hord' p hp ⟨ch, hchmem ch hchm hchp, hchd⟩
          refine ⟨pre₂, suf₂ ++ [rid], ?_, hchild₂⟩
          rw [hsingle, hsplit₂, List.append_assoc, List.cons_append]

/-! ## Entry-point corollary and map-operation lemmas -/

theorem closeCardTop_spec {st : EngineState} (hwf : WF st.cards) (rid : Nat) :
    CloseResult st rid (closeCardTop st rid) := by
  apply closeCard_go (st.cards.length + 1) st rid hwf
  intro c _
  omega

theorem closeKeep_parent_closed {L : List CardState} (hwf : WF L) (rid : Nat) :
    ∀ c ∈ L, (!(descB L rid c.id)) = true → ∀ pid, c.parentId = some pid →
      ∀ p ∈ L, p.id = pid → (!(descB L rid p.id)) = true := by
  intro c hc hcB pid hcp p hp hpid
  rcases hdB : descB L rid p.id with _ | _
  · rfl
  · exfalso
    have hdp : Desc L rid pid := hpid ▸ (descB_true_iff hwf).mp hdB
    have hdc : Desc L rid c.id := Desc.step hc hcp hdp
    rw [(descB_true_iff hwf).mpr hdc] at hcB
    exact Bool.noConfusion hcB

theorem wf_closeCardTop {st : EngineState} (hwf : WF st.cards) (rid : Nat) :
    WF (closeCardTop st rid).cards := by
  rw [(closeCardTop_spec hwf rid).1]
  exact wf_filter hwf (closeKeep_parent_closed hwf rid)

theorem closeCardTop_subset {st : EngineState} (hwf : WF st.cards) (rid : Nat) :
    ∀ c ∈ (closeCardTop st rid).cards, c ∈ st.cards := by
  intro c hc
  rw [(closeCardTop_spec hwf rid).1] at hc
  exact (List.mem_filter.mp hc).1

theorem findCard_append_left {cards : List CardState} {x : Nat} {c : CardState}
    (h : findCard cards x = some c) (extra : List CardState) :
    findCard (cards ++ extra) x = some c := by
  unfold findCard at *
  rw [List.find?_append, h]
  rfl

theorem mapSet_fresh {cards : List CardState} {card : CardState}
    (h : ∀ c ∈ cards, c.id ≠ card.id) : mapSet cards card = cards ++ [card] := by
  unfold mapSet
  rw [if_neg]
  intro hany
  rcases List.any_eq_true.mp hany with ⟨c, hc, hbeq⟩
  exact h c hc (by simpa using hbeq)

theorem findCard_append_new {cards : List CardState} {card : CardState}
    (h : ∀ c ∈ cards, c.id ≠ card.id) :
    findCard (cards ++ [card]) card.id = some card := by
  unfold findCard
  rw [List.find?_append]
  have h1 : List.find? (fun c => c.id == card.id) cards = none := by
    rw [List.find?_eq_none]
    intro c hc
    simpa using h c hc
  rw [h1]
  simp

theorem findCard_map_pres {g : CardState → CardState} :
    ∀ {L : List CardState}, (∀ d ∈ L, (g d).id = d.id) →
      ∀ x, findCard (L.map g) x = (findCard L x).map g := by
  intro L
  induction L with
  | nil => intro _ x; rfl
  | cons d ds ih =>
    intro hg x
    unfold findCard at *
    rw [List.map_cons, List.find?_cons, List.find?_cons]
    have hgd : (g d).id = d.id := hg d (List.mem_cons_self _ _)
    rcases hbeq : (d.id == x) with _ | _
    · rw [show ((g d).id == x) = false by rw [hgd]; exact hbeq]
      exact ih (fun e he => hg e (List.mem_cons_of_mem _ he)) x
    · rw [show ((g d).id == x) = true by rw [hgd]; exact hbeq]
      rfl

theorem wf_map_pres {L : List CardState} (hwf : WF L) {g : CardState → CardState}
    (hg : ∀ d ∈ L, (g d).id = d.id ∧ (g d).parentId = d.parentId ∧ (g d).level = d.level) :
    WF (L.map g) := by
  have hgid : ∀ d ∈ L, (g d).id = d.id := fun d hd => (hg d hd).1
  constructor
  · have : (L.map g).map (·.id) = L.map (·.id) := by
      rw [List.map_map]
      exact List.map_congr_left (fun d hd => hgid d hd)
    rw [this]
    exact hwf.nodup
  · rw [List.all_eq_true]
    intro c' hc'
    rcases List.mem_map.mp hc' with ⟨d, hd, rfl⟩
    obtain ⟨hid, hpar, hlvl⟩ := hg d hd
    unfold levelOkB
    rw [hpar]
    rcases hpp : d.parentId with _ | pid
    · show ((g d).level == 0) = true
      rw [hlvl]
      simpa using wf_root hwf hd hpp
    · rcases wf_parent hwf hd hpp with ⟨p, hpfind, hplevel⟩
      rcases findCard_eq_some hpfind with ⟨hpmem, _⟩
      have hfmap : findCard (L.map g) pid = some (g p) := by
        rw [findCard_map_pres hgid pid, hpfind]
        rfl
      show (match findCard (List.map g L) pid with
            | none => false
            | some q => ((g d).level == q.level + 1)) = true
      rw [hfmap]
      show ((g d).level == (g p).level + 1) = true
      rw [hlvl, (hg p hpmem).2.2]
      simpa using hplevel

/-! ## Sorting lemmas for the stable-sort model -/

theorem insertSorted_perm {α : Type} (le : α → α → Bool) (x : α) :
    ∀ l : List α, (insertSorted le x l).Perm (x :: l)
  | [] => List.Perm.refl _
  | y :: ys => by
    unfold insertSorted
    by_cases h : le x y = true
    · rw [if_pos h]
    · rw [if_neg h]
      exact ((insertSorted_perm le x ys).cons y).trans (List.Perm.swap x y ys)

theorem sortByLe_perm {α : Type} (le : α → α → Bool) :
    ∀ l : List α, (sortByLe le l).Perm l
  | [] => List.Perm.refl _
  | x :: xs => (insertSorted_perm le x (sortByLe le xs)).trans ((sortByLe_perm le xs).cons x)

theorem insertSorted_sorted {α : Type} {le : α → α → Bool}
    (htrans : ∀ a b c, le a b = true → le b c = true → le a c = true)
    (htotal : ∀ a b, (le a b || le b a) = true) (x : α) :
    ∀ l : List α, l.Pairwise (fun a b => le a b = true) →
      (insertSorted le x l).Pairwise (fun a b => le a b = true)
  | [], _ => List.pairwise_singleton _ _
  | y :: ys, h => by
    rcases List.pairwise_cons.mp h with ⟨hy, hys⟩
    unfold insertSorted
    by_cases hxy : le x y = true
    · rw [if_pos hxy]
      refine List.pairwise_cons.mpr ⟨?_, h⟩
      intro z hz
      rcases List.mem_cons.mp hz with rfl | hz'
      · exact hxy
      · exact htrans x y z hxy (hy z hz')
    · rw [if_neg hxy]
      have hyx : le y x = true := by
        have htot := htotal x y
        simp only [Bool.or_eq_true] at htot
        rcases htot with h1 | h2
        · exact absurd h1 hxy
        · exact h2
      refine List.pairwise_cons.mpr ⟨?_, insertSorted_sorted htrans htotal x ys hys⟩
      intro z hz
      have hz' : z ∈ x :: ys := ((insertSorted_perm le x ys).mem_iff).mp hz
      rcases List.mem_cons.mp hz' with rfl | hz''
      · exact hyx
      · exact hy z hz''

theorem sortByLe_sorted {α : Type} {le : α → α → Bool}
    (htrans : ∀ a b c, le a b = true → le b c = true → le a c = true)
    (htotal : ∀ a b, (le a b || le b a) = true) :
    ∀ l : List α, (sortByLe le l).Pairwise (fun a b => le a b = true)
  | [] => List.Pairwise.nil
  | x :: xs =>
    insertSorted_sorted htrans htotal x (sortByLe le xs) (sortByLe_sorted htrans htotal xs)

/-! ## Eviction-target lemmas -/

theorem eviction_le_trans : ∀ (a b c : CardState),
    (decide (a.openedAt ≤ b.openedAt)) = true → (decide (b.openedAt ≤ c.openedAt)) = true →
    (decide (a.openedAt ≤ c.openedAt)) = true := by
  intro a b c h1 h2
  simp only [decide_eq_true_eq] at *
  omega

theorem eviction_le_total : ∀ (a b : CardState),
    ((decide (a.openedAt ≤ b.openedAt)) || (decide (b.openedAt ≤ a.openedAt))) = true := by
  intro a b
  simp only [Bool.or_eq_true, decide_eq_true_eq]
  omega

theorem evictionTarget_some {cards : List CardState} {parentId : Option Nat} {t : CardState}
    (h : evictionTarget cards parentId = some t) :
    t ∈ openCardsOf cards ∧
    ((chainUp cards (cards.length + 1) parentId).contains t.id) = false ∧
    ∀ d ∈ openCardsOf cards,
      ((chainUp cards (cards.length + 1) parentId).contains d.id) = false →
        t.openedAt ≤ d.openedAt := by
  simp only [evictionTarget] at h
  rcases hms : sortByLe (fun a b => a.openedAt ≤ b.openedAt) ((openCardsOf cards).filter
      (fun c => !((chainUp cards (cards.length + 1) parentId).contains c.id)))
    with _ | ⟨t', rest⟩
  · rw [hms] at h
    exact Option.noConfusion h
  · rw [hms] at h
    have htt : t' = t := by simpa using h
    subst htt
    have htmem : t' ∈ (openCardsOf cards).filter
        (fun c => !((chainUp cards (cards.length + 1) parentId).contains c.id)) := by
      have : t' ∈ t' :: rest := List.mem_cons_self _ _
      rw [← hms] at this
      exact ((sortByLe_perm _ _).mem_iff).mp this
    rcases List.mem_filter.mp htmem with ⟨hopen, hnotanc⟩
    refine ⟨hopen, by simpa using hnotanc, ?_⟩
    intro d hd hdnot
    have hdcand : d ∈ (openCardsOf cards).filter
        (fun c => !((chainUp cards (cards.length + 1) parentId).contains c.id)) :=
      List.mem_filter.mpr ⟨hd, by simpa using hdnot⟩
    have hdms : d ∈ t' :: rest := by
      rw [← hms]
      exact ((sortByLe_perm _ _).mem_iff).mpr hdcand
    rcases List.mem_cons.mp hdms with heq | hmem
    · rw [heq]
    · have hsorted := sortByLe_sorted eviction_le_trans eviction_le_total
        ((openCardsOf cards).filter
          (fun c => !((chainUp cards (cards.length + 1) parentId).contains c.id)))
      rw [hms] at hsorted
      have := (List.pairwise_cons.mp hsorted).1 d hmem
      simpa using this

theorem evictionTarget_none_iff {cards : List CardState} {parentId : Option Nat} :
    evictionTarget cards parentId = none ↔
      ∀ d ∈ openCardsOf cards,
        ((chainUp cards (cards.length + 1) parentId).contains d.id) = true := by
  simp only [evictionTarget]
  constructor
  · intro h d hd
    rcases hms : sortByLe (fun a b => a.openedAt ≤ b.openedAt) ((openCardsOf cards).filter
        (fun c => !((chainUp cards (cards.length + 1) parentId).contains c.id)))
      with _ | ⟨t', rest⟩
    · have hperm := sortByLe_perm (fun a b => decide (a.openedAt ≤ b.openedAt))
        ((openCardsOf cards).filter
          (fun c => !((chainUp cards (cards.length + 1) parentId).contains c.id)))
      rw [hms] at hperm
      have hnil := hperm.symm.eq_nil
      by_contra hfalse
      have hcf : (chainUp cards (cards.length + 1) parentId).contains d.id = false :=
        Bool.eq_false_iff.mpr hfalse
      have hdcand : d ∈ (openCardsOf cards).filter
          (fun c => !((chainUp cards (cards.length + 1) parentId).contains c.id)) :=
        List.mem_filter.mpr ⟨hd, by rw [hcf]; rfl⟩
      rw [hnil] at hdcand
      exact List.not_mem_nil d hdcand
    · rw [hms] at h
      exact Option.noConfusion h
  · intro h
    have hnil : (openCardsOf cards).filter
        (fun c => !((chainUp cards (cards.length + 1) parentId).contains c.id)) = [] := by
      rw [List.filter_eq_nil_iff]
      intro c hc
      rw [h c hc]
      simp
    rw [hnil]
    rfl

/-! ## Invariant preservation through the engine operations -/

theorem wf_append {L : List CardState} (hwf : WF L) {newc : CardState}
    (hfresh : ∀ c ∈ L, c.id ≠ newc.id)
    (hok : levelOkB (L ++ [newc]) newc = true) : WF (L ++ [newc]) := by
  constructor
  · rw [List.map_append]
    refine List.Nodup.append hwf.nodup (by simp) ?_
    intro x hx hx2
    rcases List.mem_map.mp hx with ⟨c, hc, rfl⟩
    have : c.id = newc.id := by simpa using hx2
    exact hfresh c hc this
  · rw [List.all_eq_true]
    intro c hc
    rcases List.mem_append.mp hc with hcm | hcm
    · unfold levelOkB
      rcases hpp : c.parentId with _ | pid
      · show (c.level == 0) = true
        simpa using wf_root hwf hcm hpp
      · rcases wf_parent hwf hcm hpp with ⟨p, hpfind, hpl⟩
        show (match findCard (L ++ [newc]) pid with
              | none => false
              | some q => (c.level == q.level + 1)) = true
        rw [findCard_append_left hpfind]
        show (c.level == p.level + 1) = true
        simpa using hpl
    · have : c = newc := by simpa using hcm
      rw [this]
      exact hok

theorem parent_survives_eviction {st : EngineState} (hwf : WF st.cards)
    {parentId : Option Nat} {pid : Nat} {t : CardState}
    (hpid : parentId = some pid)
    (ht : evictionTarget st.cards parentId = some t)
    {p : CardState} (hp : p ∈ st.cards) (hpidp : p.id = pid) :
    p ∈ (closeCardTop st t.id).cards := by
  rw [(closeCardTop_spec hwf t.id).1]
  refine List.mem_filter.mpr ⟨hp, ?_⟩
  rcases hdB : descB st.cards t.id p.id with _ | _
  · rfl
  · exfalso
    have hdesc : Desc st.cards t.id pid := hpidp ▸ (descB_true_iff hwf).mp hdB
    have hpfind : findCard st.cards pid = some p := by
      have := findCard_mem hwf.nodup hp
      rwa [hpidp] at this
    have hlvl := level_lt_length hwf hpfind
    have hchain : t.id ∈ chainUp st.cards (st.cards.length + 1) (some pid) :=
      chain_of_desc hwf hdesc hpfind (by omega)
    have hcontains := (evictionTarget_some ht).2.1
    rw [hpid] at hcontains
    have : (chainUp st.cards (st.cards.length + 1) (some pid)).contains t.id = true := by
      simpa using hchain
    rw [this] at hcontains
    exact Bool.noConfusion hcontains

/-- The card object `openCard` constructs after the eviction step, with the
level computed from the post-eviction map. -/
def newCardOf (st1 : EngineState) (term : String) (position : Pos) (parentId : Option Nat)
    (now : Nat) : CardState :=
  { id := st1.counter + 1, term := term, content := none, position := position,
    isPinned := true, isLoading := true, parentId := parentId,
    level := match parentId with
      | some pid => ((findCard st1.cards pid).map (·.level)).getD 0 + 1
      | none => 0,
    openedAt := now }

theorem openAux_inv {st st1 : EngineState} (hinv : EngineInv st)
    (hwf1 : WF st1.cards) (hctr : st1.counter = st.counter)
    (hsub : ∀ c ∈ st1.cards, c ∈ st.cards)
    {term : String} {position : Pos} {parentId : Option Nat} {now : Nat}
    (hparent1 : ∀ pid, parentId = some pid → ∃ p ∈ st1.cards, p.id = pid) :
    EngineInv
      { cards := mapSet st1.cards (newCardOf st1 term position parentId now),
        events := st1.events ++ [EngineEvent.cardOpen (newCardOf st1 term position parentId now)],
        counter := st1.counter + 1 } := by
  obtain ⟨hwf, hbound⟩ := hinv
  have hfresh : ∀ c ∈ st1.cards, c.id ≠ (newCardOf st1 term position parentId now).id := by
    intro c hc
    have := (hbound c (hsub c hc)).1
    show c.id ≠ st1.counter + 1
    omega
  have hset : mapSet st1.cards (newCardOf st1 term position parentId now)
      = st1.cards ++ [newCardOf st1 term position parentId now] := mapSet_fresh hfresh
  constructor
  · rw [hset]
    refine wf_append hwf1 hfresh ?_
    unfold levelOkB
    rcases hpp : (newCardOf st1 term position parentId now).parentId with _ | pid
    · show ((newCardOf st1 term position parentId now).level == 0) = true
      have hpp' : parentId = none := hpp
      unfold newCardOf
      rw [hpp']
      rfl
    · have hpp' : parentId = some pid := hpp
      rcases hparent1 pid hpp' with ⟨p, hpmem, hpid⟩
      have hpfind : findCard st1.cards pid = some p := by
        have := findCard_mem hwf1.nodup hpmem
        rwa [hpid] at this
      have hpfind2 : findCard (st1.cards ++ [newCardOf st1 term position parentId now]) pid
          = some p := findCard_append_left hpfind _
      show (match findCard (st1.cards ++ [newCardOf st1 term position parentId now]) pid with
            | none => false
            | some q => ((newCardOf st1 term position parentId now).level == q.level + 1)) = true
      rw [hpfind2]
      show ((newCardOf st1 term position parentId now).level == p.level + 1) = true
      unfold newCardOf
      rw [hpp']
      show ((((findCard st1.cards pid).map (·.level)).getD 0 + 1) == p.level + 1) = true
      rw [hpfind]
      simp
  · intro c hc
    rw [hset] at hc
    rcases List.mem_append.mp hc with hcm | hcm
    · have h1 := hbound c (hsub c hcm)
      refine ⟨?_, h1.2⟩
      have h2 := h1.1
      show c.id ≤ st1.counter + 1
      rw [hctr]
      omega
    · have hceq : c = newCardOf st1 term position parentId now := by simpa using hcm
      rw [hceq]
      exact ⟨le_refl _, rfl⟩

theorem openCardSync_result (cfg : HoverConfig) (st : EngineState) (term : String)
    (position : Pos) (parentId : Option Nat) (now : Nat) :
    ∃ st1 : EngineState,
      (st1 = st ∨ ∃ t, evictionTarget st.cards parentId = some t ∧
        cfg.maxOpenCards ≤ (openCardsOf st.cards).length ∧ st1 = closeCardTop st t.id) ∧
      openCardSync cfg st term position parentId now =
        ({ cards := mapSet st1.cards (newCardOf st1 term position parentId now),
           events := st1.events ++
             [EngineEvent.cardOpen (newCardOf st1 term position parentId now)],
           counter := st1.counter + 1 }, st1.counter + 1) := by
  by_cases hcap : cfg.maxOpenCards ≤ (openCardsOf st.cards).length
  · rcases het : evictionTarget st.cards parentId with _ | t
    · refine ⟨st, Or.inl rfl, ?_⟩
      unfold openCardSync newCardOf
      rw [if_pos hcap, het]
    · refine ⟨closeCardTop st t.id, Or.inr ⟨t, rfl, hcap, rfl⟩, ?_⟩
      unfold openCardSync newCardOf
      rw [if_pos hcap, het]
  · refine ⟨st, Or.inl rfl, ?_⟩
    unfold openCardSync newCardOf
    rw [if_neg hcap]

theorem closeCardTop_inv {st : EngineState} (hinv : EngineInv st) (rid : Nat) :
    EngineInv (closeCardTop st rid) := by
  refine ⟨wf_closeCardTop hinv.1 rid, ?_⟩
  intro c hc
  have hcm := closeCardTop_subset hinv.1 rid c hc
  have hctr : (closeCardTop st rid).counter = st.counter := (closeCardTop_spec hinv.1 rid).2.1
  rw [hctr]
  exact hinv.2 c hcm

theorem openCardSync_inv (cfg : HoverConfig) {st : EngineState} (hinv : EngineInv st)
    (term : String) (position : Pos) (parentId : Option Nat) (now : Nat)
    (hparent : ∀ pid, parentId = some pid → ∃ c ∈ st.cards, c.id = pid) :
    EngineInv (openCardSync cfg st term position parentId now).1 := by
  obtain ⟨st1, hcase, heq⟩ := openCardSync_result cfg st term position parentId now
  rw [heq]
  rcases hcase with rfl | ⟨t, het, hcap, rfl⟩
  · exact openAux_inv hinv hinv.1 rfl (fun c hc => hc) hparent
  · refine openAux_inv hinv (wf_closeCardTop hinv.1 t.id)
      (closeCardTop_spec hinv.1 t.id).2.1 (closeCardTop_subset hinv.1 t.id) ?_
    intro pid hpid
    rcases hparent pid hpid with ⟨p, hp, hpidp⟩
    exact ⟨p, parent_survives_eviction hinv.1 hpid het hp hpidp, hpidp⟩

theorem applyResolved_inv {st : EngineState} (hinv : EngineInv st) (cardId : Nat)
    (content : Option Content) : EngineInv (applyResolved st cardId content) := by
  unfold applyResolved
  rcases hfind : findCard st.cards cardId with _ | c
  · exact hinv
  · rcases findCard_eq_some hfind with ⟨hcmem, hcid⟩
    obtain ⟨hwf, hbound⟩ := hinv
    constructor
    · refine wf_map_pres hwf ?_
      intro d hd
      by_cases h : (d.id == cardId) = true
      · have hdid : d.id = cardId := by simpa using h
        have hdc : d = c := nodup_id_eq hwf.nodup hd hcmem (hdid.trans hcid.symm)
        rw [if_pos h]
        subst hdc
        exact ⟨hcid.symm ▸ rfl, rfl, rfl⟩
      · rw [if_neg h]
        exact ⟨rfl, rfl, rfl⟩
    · intro d hd
      rcases List.mem_map.mp hd with ⟨e, he, rfl⟩
      by_cases h : (e.id == cardId) = true
      · have heid : e.id = cardId := by simpa using h
        have hec : e = c := nodup_id_eq hwf.nodup he hcmem (heid.trans hcid.symm)
        rw [if_pos h]
        subst hec
        refine ⟨?_, ?_⟩
        · show e.id ≤ st.counter
          exact (hbound e he).1
        · show e.isPinned = true
          exact (hbound e he).2
      · rw [if_neg h]
        exact hbound e he

theorem replaceLinkSync_inv {st : EngineState} (hinv : EngineInv st) (linkTerm : String)
    (fromCardId : Nat) : EngineInv (replaceLinkSync st linkTerm fromCardId) := by
  unfold replaceLinkSync
  rcases hfind : findCard st.cards fromCardId with _ | c
  · exact hinv
  · rcases findCard_eq_some hfind with ⟨hcmem, hcid⟩
    obtain ⟨hwf, hbound⟩ := hinv
    constructor
    · refine wf_map_pres hwf ?_
      intro d hd
      by_cases h : (d.id == fromCardId) = true
      · have hdid : d.id = fromCardId := by simpa using h
        have hdc : d = c := nodup_id_eq hwf.nodup hd hcmem (hdid.trans hcid.symm)
        rw [if_pos h]
        subst hdc
        exact ⟨rfl, rfl, rfl⟩
      · rw [if_neg h]
        exact ⟨rfl, rfl, rfl⟩
    · intro d hd
      rcases List.mem_map.mp hd with ⟨e, he, rfl⟩
      by_cases h : (e.id == fromCardId) = true
      · have heid : e.id = fromCardId := by simpa using h
        have hec : e = c := nodup_id_eq hwf.nodup he hcmem (heid.trans hcid.symm)
        rw [if_pos h]
        subst hec
        exact ⟨(hbound e he).1, (hbound e he).2⟩
      · rw [if_neg h]
        exact hbound e he

theorem pinCard_inv (cfg : HoverConfig) {st : EngineState} (hinv : EngineInv st)
    (term : String) (adjacentPos : Pos) (now : Nat) :
    EngineInv (pinCard cfg st term adjacentPos now) := by
  unfold pinCard
  rcases hfind : st.cards.find? (fun c => c.term == term) with _ | c
  · rw [hfind]
    exact openCardSync_inv cfg hinv term adjacentPos none now (by simp)
  · rw [hfind]
    have hcmem : c ∈ st.cards := List.mem_of_find?_eq_some hfind
    obtain ⟨hwf, hbound⟩ := hinv
    show EngineInv
      (if (!c.isPinned) = true then
        { cards := st.cards.map (fun d => if d.id == c.id then { d with isPinned := true } else d),
          events := st.events ++ [EngineEvent.cardPin c.id], counter := st.counter }
      else st)
    by_cases hpin : (!c.isPinned) = true
    · rw [if_pos hpin]
      constructor
      · refine wf_map_pres hwf ?_
        intro d _
        by_cases h : (d.id == c.id) = true
        · rw [if_pos h]
          exact ⟨rfl, rfl, rfl⟩
        · rw [if_neg h]
          exact ⟨rfl, rfl, rfl⟩
      · intro d hd
        rcases List.mem_map.mp hd with ⟨e, he, rfl⟩
        by_cases h : (e.id == c.id) = true
        · rw [if_pos h]
          exact ⟨(hbound e he).1, rfl⟩
        · rw [if_neg h]
          exact hbound e he
    · rw [if_neg hpin]
      exact ⟨hwf, hbound⟩

theorem closeUnpinnedCard_inv {st : EngineState} (hinv : EngineInv st) (term : String) :
    EngineInv (closeUnpinnedCard st term) := by
  unfold closeUnpinnedCard
  rcases hfind : st.cards.find? (fun c => c.term == term && !c.isPinned) with _ | c
  · rw [hfind]
    exact hinv
  · rw [hfind]
    exact closeCardTop_inv hinv c.id

theorem engineStep_inv {cfg : HoverConfig} {st st' : EngineState} (hinv : EngineInv st)
    (hstep : EngineStep cfg st st') : EngineInv st' := by
  cases hstep with
  | openStep term position parentId now hparent =>
    exact openCardSync_inv cfg hinv term position parentId now hparent
  | closeStep cardId => exact closeCardTop_inv hinv cardId
  | resolvedStep cardId content => exact applyResolved_inv hinv cardId content
  | replaceStep linkTerm fromCardId => exact replaceLinkSync_inv hinv linkTerm fromCardId
  | pinStep term adjacentPos now => exact pinCard_inv cfg hinv term adjacentPos now
  | closeUnpinnedStep term => exact closeUnpinnedCard_inv hinv term

theorem reachable_inv {cfg : HoverConfig} {st : EngineState} (h : Reachable cfg st) :
    EngineInv st := by
  induction h with
  | init => exact ⟨⟨by simp [initState], by simp [initState]⟩, by simp [initState]⟩
  | step _ hstep ih => exact engineStep_inv ih hstep

theorem openCardSync_eq_evict {cfg : HoverConfig} {st : EngineState} {parentId : Option Nat}
    {t : CardState} (hcap : cfg.maxOpenCards ≤ (openCardsOf st.cards).length)
    (het : evictionTarget st.cards parentId = some t) (term : String) (position : Pos)
    (now : Nat) :
    openCardSync cfg st term position parentId now =
      ({ cards := mapSet (closeCardTop st t.id).cards
            (newCardOf (closeCardTop st t.id) term position parentId now),
         events := (closeCardTop st t.id).events ++
           [EngineEvent.cardOpen (newCardOf (closeCardTop st t.id) term position parentId now)],
         counter := (closeCardTop st t.id).counter + 1 },
       (closeCardTop st t.id).counter + 1) := by
  unfold openCardSync newCardOf
  rw [if_pos hcap, het]

theorem openCardSync_eq_over_none {cfg : HoverConfig} {st : EngineState}
    {parentId : Option Nat} (hcap : cfg.maxOpenCards ≤ (openCardsOf st.cards).length)
    (het : evictionTarget st.cards parentId = none) (term : String) (position : Pos)
    (now : Nat) :
    openCardSync cfg st term position parentId now =
      ({ cards := mapSet st.cards (newCardOf st term position parentId now),
         events := st.events ++
           [EngineEvent.cardOpen (newCardOf st term position parentId now)],
         counter := st.counter + 1 },
       st.counter + 1) := by
  unfold openCardSync newCardOf
  rw [if_pos hcap, het]

theorem findCard_mapSet_self (cards : List CardState) (card : CardState) :
    findCard (mapSet cards card) card.id = some card := by
  have key : ∀ (L : List CardState), L.any (fun c => c.id == card.id) = true →
      List.find? (fun c => c.id == card.id)
        (L.map (fun c => if c.id == card.id then card else c)) = some card := by
    intro L
    induction L with
    | nil =>
      intro h
      simp at h
    | cons d ds ih =>
      intro h
      rw [List.map_cons, List.find?_cons]
      by_cases hd : (d.id == card.id) = true
      · rw [if_pos hd]
        rw [show (card.id == card.id) = true by simp]
      · rw [if_neg hd]
        have hdf : (d.id == card.id) = false := Bool.eq_false_iff.mpr hd
        rw [hdf]
        apply ih
        rw [List.any_cons] at h
        rcases Bool.or_eq_true_iff.mp h with h1 | h1
        · exact absurd h1 hd
        · exact h1
  unfold mapSet
  by_cases hany : cards.any (fun c => c.id == card.id) = true
  · rw [if_pos hany]
    exact key cards hany
  · rw [if_neg hany]
    have hfresh : ∀ c ∈ cards, c.id ≠ card.id := by
      intro c hc heq
      exact hany (List.any_eq_true.mpr ⟨c, hc, by simpa using heq⟩)
    exact findCard_append_new hfresh

/-! ## Concrete states used by the claim witnesses -/

/-- A permissive configuration (the schema default cap). -/
def cfgW : HoverConfig := { maxOpenCards := 20, linkFollowInNewCard := true }

/-- A configuration with the tightest cap the schema admits. -/
def cfgW1 : HoverConfig := { maxOpenCards := 1, linkFollowInNewCard := true }

/-- One root card `alpha` opened on a fresh engine. -/
def stW1 : EngineState := (openCardSync cfgW initState "alpha" ⟨0, 0⟩ none 10).1

/-- A child card `beta` stacked on `alpha` (ids 1 and 2). -/
def stW2 : EngineState := (openCardSync cfgW stW1 "beta" ⟨1, 1⟩ (some 1) 20).1

theorem stW1_reachable : Reachable cfgW stW1 :=
  Reachable.step Reachable.init
    (EngineStep.openStep initState "alpha" ⟨0, 0⟩ none 10 (fun _ h => Option.noConfusion h))

theorem stW2_reachable : Reachable cfgW stW2 :=
  Reachable.step stW1_reachable
    (EngineStep.openStep stW1 "beta" ⟨1, 1⟩ (some 1) 20
      (fun pid h => by
        cases h
        exact ⟨newCardOf initState "alpha" ⟨0, 0⟩ none 10, by decide, by decide⟩))

/-! ## C2 — the level/parent invariant -/

/-- The level/parent property of one engine state, packaged so the witness
below is a closed statement. -/
def LevelsOk (st : EngineState) : Prop :=
  ∀ c ∈ st.cards,
    (c.level = 0 ↔ c.parentId = none) ∧
    (∀ pid, c.parentId = some pid →
      ∃ p, findCard st.cards pid = some p ∧ c.level = p.level + 1)

/-- C2: in every reachable engine state, every card's `level` is `0` exactly
when it has no `parentId`; otherwise the parent is present in the collection
and `level` equals the parent's level plus one. -/
theorem claim_levels_invariant {cfg : HoverConfig} {st : EngineState}
    (h : Reachable cfg st) :
    ∀ c ∈ st.cards,
      (c.level = 0 ↔ c.parentId = none) ∧
      (∀ pid, c.parentId = some pid →
        ∃ p, findCard st.cards pid = some p ∧ c.level = p.level + 1) := by
  have hwf : WF st.cards := (reachable_inv h).1
  intro c hc
  refine ⟨⟨?_, wf_root hwf hc⟩, fun pid hpp => wf_parent hwf hc hpp⟩
  intro hl
  rcases hpp : c.parentId with _ | pid
  · rfl
  · have := wf_level_pos hwf hc hpp
    omega

theorem claim_levels_invariant_witness : LevelsOk stW2 :=
  fun c hc => claim_levels_invariant stW2_reachable c hc

/-! ## C3 — recursive close removes exactly the subtree, children first -/

/-- C3: `closeCard(id)` on a present id removes exactly that card and its
transitive descendants, emits one close event per removed id (and nothing
else), and emits every removed card's close event strictly before its
parent's close event. -/
theorem claim_closeCard_subtree {st : EngineState} (hwf : WF st.cards) (cardId : Nat)
    (_hpresent : findCard st.cards cardId ≠ none) :
    CloseResult st cardId (closeCardTop st cardId) :=
  closeCardTop_spec hwf cardId

theorem claim_closeCard_subtree_witness : CloseResult stW2 1 (closeCardTop stW2 1) :=
  claim_closeCard_subtree (by decide) 1 (by decide)

/-! ## C10 — every card is pinned from creation; the unpin paths are dead -/

/-- C10: in every reachable state all cards have `isPinned = true` (openCard
creates them pinned and nothing clears the flag), so `closeUnpinnedCard`
finds nothing to remove and `pinCard` on an existing term never takes the
mark-as-pinned branch (no `cardPin` event, state unchanged). -/
theorem claim_always_pinned {cfg : HoverConfig} {st : EngineState} (h : Reachable cfg st) :
    (∀ c ∈ st.cards, c.isPinned = true) ∧
    (∀ term, closeUnpinnedCard st term = st) ∧
    (∀ term adjacentPos now, (∃ c ∈ st.cards, c.term = term) →
      pinCard cfg st term adjacentPos now = st) := by
  have hpinned : ∀ c ∈ st.cards, c.isPinned = true :=
    fun c hc => ((reachable_inv h).2 c hc).2
  refine ⟨hpinned, ?_, ?_⟩
  · intro term
    unfold closeUnpinnedCard
    have hnone : st.cards.find? (fun c => c.term == term && !c.isPinned) = none := by
      rw [List.find?_eq_none]
      intro c hc
      rw [hpinned c hc]
      simp
    rw [hnone]
  · rintro term adjacentPos now ⟨c0, hc0, hterm⟩
    unfold pinCard
    rcases hfind : st.cards.find? (fun c => c.term == term) with _ | c
    · exfalso
      have := List.find?_eq_none.mp hfind c0 hc0
      simp [hterm] at this
    · have hc' : ¬((!c.isPinned) = true) := by
        rw [hpinned c (List.mem_of_find?_eq_some hfind)]
        simp
      rw [hfind]
      show (if (!c.isPinned) = true then
          { cards := st.cards.map
              (fun d => if d.id == c.id then { d with isPinned := true } else d),
            events := st.events ++ [EngineEvent.cardPin c.id], counter := st.counter }
        else st) = st
      rw [if_neg hc']

theorem claim_always_pinned_witness :
    (∀ c ∈ stW2.cards, c.isPinned = true) ∧
    (∀ term, closeUnpinnedCard stW2 term = stW2) ∧
    (∀ term adjacentPos now, (∃ c ∈ stW2.cards, c.term = term) →
      pinCard cfgW stW2 term adjacentPos now = stW2) :=
  claim_always_pinned stW2_reachable

/-! ## C1 — the eviction policy of `openCard` -/

/-- The eviction-policy specification for one over-cap `openCard` call: a
chosen target is an open (pinned-or-loading) card off the prospective
parent's ancestor chain with minimal `openedAt` there; the eviction removes
it while every card on the ancestor chain survives, and `openCard` proceeds
on the post-close state; no target exists exactly when every open card is on
the ancestor chain, and then nothing is closed — the collection simply grows
by the new card (the soft-cap exception). -/
def EvictionSpec (cfg : HoverConfig) (st : EngineState) (parentId : Option Nat) : Prop :=
  (∀ t, evictionTarget st.cards parentId = some t →
    t ∈ openCardsOf st.cards ∧
    (chainUp st.cards (st.cards.length + 1) parentId).contains t.id = false ∧
    (∀ d ∈ openCardsOf st.cards,
      (chainUp st.cards (st.cards.length + 1) parentId).contains d.id = false →
        t.openedAt ≤ d.openedAt) ∧
    t.id ∉ (closeCardTop st t.id).cards.map (·.id) ∧
    (∀ x ∈ chainUp st.cards (st.cards.length + 1) parentId,
      ∀ c ∈ st.cards, c.id = x → c ∈ (closeCardTop st t.id).cards) ∧
    (∀ term position now,
      openCardSync cfg st term position parentId now =
        ({ cards := mapSet (closeCardTop st t.id).cards
              (newCardOf (closeCardTop st t.id) term position parentId now),
           events := (closeCardTop st t.id).events ++
             [EngineEvent.cardOpen
               (newCardOf (closeCardTop st t.id) term position parentId now)],
           counter := (closeCardTop st t.id).counter + 1 },
         (closeCardTop st t.id).counter + 1))) ∧
  (evictionTarget st.cards parentId = none ↔
    ∀ d ∈ openCardsOf st.cards,
      (chainUp st.cards (st.cards.length + 1) parentId).contains d.id = true) ∧
  (evictionTarget st.cards parentId = none →
    ∀ term position now,
      (openCardSync cfg st term position parentId now).1.cards.length
        = st.cards.length + 1)

/-- C1: the eviction policy holds in every well-formed over-cap state. -/
theorem claim_eviction_policy (cfg : HoverConfig) {st : EngineState} (hinv : EngineInv st)
    (parentId : Option Nat)
    (hcap : cfg.maxOpenCards ≤ (openCardsOf st.cards).length) :
    EvictionSpec cfg st parentId := by
  obtain ⟨hwf, hbound⟩ := hinv
  refine ⟨?_, evictionTarget_none_iff, ?_⟩
  · intro t het
    obtain ⟨hopen, hnotanc, hmin⟩ := evictionTarget_some het
    have htmem : t ∈ st.cards := (List.mem_filter.mp hopen).1
    refine ⟨hopen, hnotanc, hmin, ?_, ?_,
      fun term position now => openCardSync_eq_evict hcap het term position now⟩
    · intro hmem
      rcases List.mem_map.mp hmem with ⟨c, hc, hcid⟩
      rw [(closeCardTop_spec hwf t.id).1] at hc
      rcases List.mem_filter.mp hc with ⟨hcL, hckeep⟩
      have hct : c = t := nodup_id_eq hwf.nodup hcL htmem hcid
      subst hct
      rw [(descB_true_iff hwf).mpr Desc.refl] at hckeep
      exact Bool.noConfusion hckeep
    · intro x hx c hc hcid
      rw [(closeCardTop_spec hwf t.id).1]
      refine List.mem_filter.mpr ⟨hc, ?_⟩
      rcases hdB : descB st.cards t.id c.id with _ | _
      · rfl
      · exfalso
        have hdesc : Desc st.cards t.id x := hcid ▸ (descB_true_iff hwf).mp hdB
        rcases desc_of_chain hx with ⟨pid0, hpid0, hxd⟩
        have htp : Desc st.cards t.id pid0 := desc_trans hdesc hxd
        by_cases hne : pid0 = t.id
        · subst hne
          rw [hpid0] at hnotanc
          have hhead : t.id ∈ chainUp st.cards (st.cards.length + 1) (some t.id) := by
            rw [chainUp]
            exact List.mem_cons_self _ _
          have hcon : (chainUp st.cards (st.cards.length + 1) (some t.id)).contains t.id
              = true := by
            simpa using hhead
          rw [hcon] at hnotanc
          exact Bool.noConfusion hnotanc
        · rcases desc_card_of_ne htp hne with ⟨cp, hcpm, hcpid⟩
          have hcpfind : findCard st.cards pid0 = some cp := by
            have := findCard_mem hwf.nodup hcpm
            rwa [hcpid] at this
          have hlvl := level_lt_length hwf hcpfind
          have hchain : t.id ∈ chainUp st.cards (st.cards.length + 1) (some pid0) :=
            chain_of_desc hwf htp hcpfind (by omega)
          rw [hpid0] at hnotanc
          have hcon : (chainUp st.cards (st.cards.length + 1) (some pid0)).contains t.id
              = true := by
            simpa using hchain
          rw [hcon] at hnotanc
          exact Bool.noConfusion hnotanc
  · intro het term position now
    rw [openCardSync_eq_over_none hcap het term position now]
    show (mapSet st.cards (newCardOf st term position parentId now)).length
      = st.cards.length + 1
    have hfresh : ∀ c ∈ st.cards, c.id ≠ (newCardOf st term position parentId now).id := by
      intro c hc heq
      have := (hbound c hc).1
      have hnew : (newCardOf st term position parentId now).id = st.counter + 1 := rfl
      rw [hnew] at heq
      omega
    rw [mapSet_fresh hfresh, List.length_append]
    rfl

instance (st : EngineState) : Decidable (EngineInv st) := by
  unfold EngineInv
  infer_instance

theorem claim_eviction_policy_witness : EvictionSpec cfgW1 stW1 none :=
  claim_eviction_policy cfgW1 (by decide) none (by decide)

/-! ## C8 — content resolution and failure folding -/

theorem resolveContentE_eq_spec : ∀ sources : List SourceResult,
    resolveContentE sources = Except.ok (specFirstContent sources) := by
  intro sources
  induction sources with
  | nil => rfl
  | cons s rest ih =>
    rcases s with e | oc
    · rw [show resolveContentE (Except.error e :: rest) = resolveContentE rest from rfl, ih]
      rfl
    · rcases oc with _ | c
      · rw [show resolveContentE (Except.ok none :: rest) = resolveContentE rest from rfl, ih]
        rfl
      · rfl

theorem resolveContent_eq_spec (sources : List SourceResult) :
    resolveContent sources = specFirstContent sources := by
  unfold resolveContent
  rw [resolveContentE_eq_spec sources]

theorem applyResolved_found {st : EngineState} {cardId : Nat} {c : CardState}
    (hfind : findCard st.cards cardId = some c) (content : Option Content) :
    findCard (applyResolved st cardId content).cards cardId
      = some { c with content := content, isLoading := false } := by
  unfold applyResolved
  rw [hfind]
  show findCard (st.cards.map (fun d => if d.id == cardId then
      { c with content := content, isLoading := false } else d)) cardId
    = some { c with content := content, isLoading := false }
  have hcid : c.id = cardId := (findCard_eq_some hfind).2
  have hg : ∀ d ∈ st.cards, ((fun d => if d.id == cardId then
      { c with content := content, isLoading := false } else d) d).id = d.id := by
    intro d _
    dsimp only
    by_cases h : (d.id == cardId) = true
    · rw [if_pos h]
      have hdc : d.id = cardId := by simpa using h
      show c.id = d.id
      rw [hcid]
      exact hdc.symm
    · rw [if_neg h]
  rw [findCard_map_pres hg cardId, hfind]
  have hbeq : (c.id == cardId) = true := by simp [hcid]
  show some (if c.id == cardId then
      { c with content := content, isLoading := false } else c) = _
  rw [if_pos hbeq]

/-- C8: `resolveContent` steps through the sources in order, never raising:
it always settles with the first non-null successful answer (a throwing or
rejecting source is skipped exactly like a `null` one), and `openCard` folds
the outcome into the card — after resolution the card is still in the
collection with `isLoading = false` and `content` equal to that outcome, so
when every source fails or returns null the card stays open with
`content = none`. -/
theorem claim_resolution_policy :
    (∀ sources : List SourceResult,
      resolveContentE sources = Except.ok (specFirstContent sources)) ∧
    (∀ sources : List SourceResult,
      (∀ s ∈ sources, ∀ c, s ≠ Except.ok (some c)) → specFirstContent sources = none) ∧
    (∀ (cfg : HoverConfig) (st : EngineState) (term : String) (position : Pos)
        (parentId : Option Nat) (now : Nat) (sources : List SourceResult),
      ∃ c, findCard (openCardFull cfg st term position parentId now sources).1.cards
            (openCardFull cfg st term position parentId now sources).2 = some c ∧
        c.isLoading = false ∧ c.content = specFirstContent sources ∧ c.term = term) := by
  refine ⟨resolveContentE_eq_spec, ?_, ?_⟩
  · intro sources hall
    unfold specFirstContent
    have : sources.filterMap (fun s =>
        match s with
        | Except.ok (some c) => some c
        | _ => none) = [] := by
      rw [List.filterMap_eq_nil_iff]
      intro s hs
      rcases s with e | oc
      · rfl
      · rcases oc with _ | c
        · rfl
        · exact absurd rfl (hall (Except.ok (some c)) hs c)
    rw [this]
    rfl
  · intro cfg st term position parentId now sources
    obtain ⟨st1, _, heq⟩ := openCardSync_result cfg st term position parentId now
    unfold openCardFull
    rw [heq]
    refine ⟨_, applyResolved_found (findCard_mapSet_self st1.cards
      (newCardOf st1 term position parentId now)) (resolveContent sources), rfl, ?_, rfl⟩
    exact resolveContent_eq_spec sources

/-- The empty sources-failure witness input for the resolution claim. -/
def srcW : List SourceResult := [Except.error (), Except.ok none]

theorem claim_resolution_policy_witness :
    resolveContentE srcW = Except.ok (specFirstContent srcW) ∧
    specFirstContent srcW = none ∧
    (∃ c, findCard (openCardFull cfgW initState "alpha" ⟨0, 0⟩ none 5 srcW).1.cards
          (openCardFull cfgW initState "alpha" ⟨0, 0⟩ none 5 srcW).2 = some c ∧
      c.isLoading = false ∧ c.content = specFirstContent srcW ∧ c.term = "alpha") :=
  ⟨claim_resolution_policy.1 srcW,
   claim_resolution_policy.2.1 srcW (by
     intro s hs c
     simp only [srcW, List.mem_cons, List.not_mem_nil, or_false] at hs
     rcases hs with rfl | rfl <;> simp),
   claim_resolution_policy.2.2 cfgW initState "alpha" ⟨0, 0⟩ none 5 srcW⟩

/-! ## C7 — edge-triggered zone notification -/

/-- C7: subscribing delivers exactly one immediate notification carrying the
current state's zone, and any sequence of further samples that all classify
to the current zone produces no additional notifications (the edge-triggered
`setZone` suppresses duplicates). -/
theorem claim_zone_subscribe (st : TrackerState) (samples : List Sample)
    (h : ∀ s ∈ samples, classifyZone s.x s.y s.hits s.topCardId = st.overZone) :
    (subscribe st).log = st.log ++ [st.overZone] ∧
    (samples.foldl processSample (subscribe st)).log = st.log ++ [st.overZone] := by
  have key : ∀ (ss : List Sample) (t : TrackerState), t.overZone = st.overZone →
      (∀ s ∈ ss, classifyZone s.x s.y s.hits s.topCardId = st.overZone) →
      (ss.foldl processSample t).log = t.log ∧
      (ss.foldl processSample t).overZone = t.overZone := by
    intro ss
    induction ss with
    | nil => exact fun t _ _ => ⟨rfl, rfl⟩
    | cons s ss ih =>
      intro t ht hall
      rw [List.foldl_cons]
      have hcls : classifyZone s.x s.y s.hits s.topCardId = st.overZone :=
        hall s (List.mem_cons_self _ _)
      have hstep : processSample t s = { t with lastX := s.x, lastY := s.y } := by
        unfold processSample setZone
        rw [hcls]
        rw [if_neg (not_ne_iff.mpr ht)]
      rw [hstep]
      have hrec := ih { t with lastX := s.x, lastY := s.y } ht
        (fun s' hs' => hall s' (List.mem_cons_of_mem _ hs'))
      exact ⟨hrec.1, hrec.2⟩
  have hsub : (subscribe st).log = st.log ++ [st.overZone] := rfl
  have hkey := key samples (subscribe st) rfl h
  exact ⟨hsub, hkey.1.trans hsub⟩

/-- The tracker state and samples used by the subscription witness. -/
def trackerW : TrackerState := { lastX := 0, lastY := 0, overZone := Zone.trigger, log := [] }

/-- Two identical over-a-trigger pointer samples. -/
def samplesW : List Sample :=
  [{ x := 1, y := 2, hits := [{ cardId := none, isTrigger := true }], topCardId := none },
   { x := 1, y := 2, hits := [{ cardId := none, isTrigger := true }], topCardId := none }]

theorem claim_zone_subscribe_witness :
    (subscribe trackerW).log = trackerW.log ++ [trackerW.overZone] ∧
    (samplesW.foldl processSample (subscribe trackerW)).log
      = trackerW.log ++ [trackerW.overZone] :=
  claim_zone_subscribe trackerW samplesW (by decide)

/-! ## C9 — the auto-close delay after a cascade -/

/-- The provider's delay props when the host passes no overrides. -/
def defaultBehaviorProps : BehaviorProps :=
  { cardInitialPopDelayMs := none, cardCascadePopDelayMs := none }

/-- C9 counterexample: with `hasCascaded` set the controller does schedule
with the cascade delay, but under the default configuration that delay
(3000 ms; provider fallback and schema default agree) is strictly larger
than the initial delay (500 ms provider fallback, 1000 ms schema default),
so the claimed `cascadeDelay < initialDelay` is false. -/
theorem claim_cascade_delay_counterexample :
    scheduleDelay true defaultBehaviorProps = 3000 ∧
    scheduleDelay false defaultBehaviorProps = 500 ∧
    ¬ (providerCascadeDelay defaultBehaviorProps < providerInitialDelay defaultBehaviorProps) ∧
    ¬ (schemaCascadeDelayDefault < schemaInitialDelayDefault) := by
  refine ⟨rfl, rfl, ?_, ?_⟩ <;> decide

/-- C9 (amended): after a prior auto-close (`hasCascaded`) the controller
schedules the next close after `cardCascadePopDelayMs`, otherwise after
`cardInitialPopDelayMs`; under the defaults the cascade delay is the larger
of the two (3000 ms vs 500 ms provider / 1000 ms schema), so auto-dismissal
slows down rather than speeding up. -/
theorem claim_cascade_delay_amended :
    (∀ b, scheduleDelay true b = providerCascadeDelay b) ∧
    (∀ b, scheduleDelay false b = providerInitialDelay b) ∧
    providerInitialDelay defaultBehaviorProps = 500 ∧
    providerCascadeDelay defaultBehaviorProps = 3000 ∧
    schemaInitialDelayDefault = 1000 ∧
    schemaCascadeDelayDefault = 3000 ∧
    providerInitialDelay defaultBehaviorProps < providerCascadeDelay defaultBehaviorProps ∧
    schemaInitialDelayDefault < schemaCascadeDelayDefault := by
  refine ⟨fun b => rfl, fun b => rfl, rfl, rfl, rfl, rfl, ?_, ?_⟩ <;> decide

/-! ## Term-matcher provenance lemmas -/

theorem toLower_toLower (c : Char) : (Char.toLower c).toLower = Char.toLower c := by
  unfold Char.toLower
  by_cases h : c.toNat ≥ 65 ∧ c.toNat ≤ 90
  · rw [if_pos h]
    have hv : (c.toNat + 32).isValidChar := by
      constructor
      omega
    have ht : (Char.ofNat (c.toNat + 32)).toNat = c.toNat + 32 := by
      unfold Char.ofNat
      rw [dif_pos hv]
      rfl
    rw [if_neg (by omega)]
  · rw [if_neg h, if_neg h]

theorem lowerStr_idem (s : List Char) : lowerStr (lowerStr s) = lowerStr s := by
  unfold lowerStr
  rw [List.map_map]
  exact List.map_congr_left (fun c _ => toLower_toLower c)

theorem foldl_append_eq {α β : Type} (f : α → List β) :
    ∀ (l : List α) (init : List β),
      l.foldl (fun acc x => acc ++ f x) init = init ++ (l.map f).flatten := by
  intro l
  induction l with
  | nil => intro init; simp
  | cons x xs ih =>
    intro init
    rw [List.foldl_cons, ih, List.map_cons, List.flatten_cons, List.append_assoc]

theorem mem_findTermsInText {cfg : HighlightConfig} {tm : MatcherState} {text : List Char}
    {seg : Nat} {m : TermMatch} (hm : m ∈ findTermsInText cfg tm text seg) :
    ∃ term ∈ tm.terms,
      ∃ i ∈ execLoop cfg term.data (if cfg.caseSensitive then text else lowerStr text)
        ((if cfg.caseSensitive then text else lowerStr text).length + 2) 0,
        m = { term := getCanonicalTerm tm term,
              start := i,
              stop := i + term.data.length,
              seg := seg,
              confidence := calculateConfidence term.data
                (((if cfg.caseSensitive then text else lowerStr text).drop i).take
                  term.data.length) } := by
  unfold findTermsInText at hm
  rw [foldl_append_eq] at hm
  rw [List.nil_append] at hm
  rcases List.mem_flatten.mp hm with ⟨l, hl, hml⟩
  rcases List.mem_map.mp hl with ⟨term, hterm, rfl⟩
  rcases List.mem_map.mp hml with ⟨i, hi, rfl⟩
  exact ⟨term, hterm, i, hi, rfl⟩

theorem execLoop_mem {cfg : HighlightConfig} {t text : List Char} :
    ∀ {fuel lastIndex i : Nat}, i ∈ execLoop cfg t text fuel lastIndex →
      regexMatchAt cfg t text i = true := by
  intro fuel
  induction fuel with
  | zero =>
    intro lastIndex i hi
    simp [execLoop] at hi
  | succ fuel ih =>
    intro lastIndex i hi
    rw [execLoop] at hi
    rcases hfindres : execFind cfg t text lastIndex with _ | j
    · rw [hfindres] at hi
      simp at hi
    · rw [hfindres] at hi
      rcases List.mem_cons.mp hi with rfl | hi'
      · have := List.find?_some hfindres
        exact (Bool.and_eq_true_iff.mp this).2
      · exact ih hi'

theorem ciMatchAt_spec {t text : List Char} {i : Nat} (h : ciMatchAt t text i = true) :
    ((text.drop i).take t.length).map Char.toLower = t.map Char.toLower ∧
    i + t.length ≤ text.length := by
  unfold ciMatchAt at h
  obtain ⟨h1, h2⟩ := Bool.and_eq_true_iff.mp h
  exact ⟨by simpa using h1, by simpa using h2⟩

theorem regexMatchAt_ci {cfg : HighlightConfig} {t text : List Char} {i : Nat}
    (h : regexMatchAt cfg t text i = true) : ciMatchAt t text i = true := by
  unfold regexMatchAt at h
  by_cases hwb : cfg.wordBoundary = true
  · rw [if_pos hwb] at h
    exact (Bool.and_eq_true_iff.mp (Bool.and_eq_true_iff.mp h).1).2
  · rw [if_neg hwb] at h
    exact h

/-! ## C4 — the confidence policy as implemented -/

/-- With a case-insensitive configuration, every term stored in the registry
is already lowercase (which `addTerm` guarantees). -/
def MatcherNormalized (cfg : HighlightConfig) (tm : MatcherState) : Prop :=
  cfg.caseSensitive = false → ∀ t ∈ tm.terms, lowerStr t.data = t.data

instance (cfg : HighlightConfig) (tm : MatcherState) :
    Decidable (MatcherNormalized cfg tm) := by
  unfold MatcherNormalized
  infer_instance

theorem mem_setAdd {l : List String} {x y : String} (h : y ∈ setAdd l x) :
    y ∈ l ∨ y = x := by
  unfold setAdd at h
  by_cases hc : l.contains x = true
  · rw [if_pos hc] at h
    exact Or.inl h
  · rw [if_neg hc] at h
    rcases List.mem_append.mp h with h | h
    · exact Or.inl h
    · exact Or.inr (by simpa using h)

theorem normalizeTerm_norm {cfg : HighlightConfig} (hcs : cfg.caseSensitive = false)
    (s : String) : lowerStr (normalizeTerm cfg s).data = (normalizeTerm cfg s).data := by
  unfold normalizeTerm
  rw [if_neg (by rw [hcs]; exact Bool.false_ne_true)]
  exact lowerStr_idem s.data

theorem addTerm_normalized {cfg : HighlightConfig} {tm : MatcherState} {term : String}
    {aliases : Option (List String)} (h : MatcherNormalized cfg tm) :
    MatcherNormalized cfg (addTerm cfg tm term aliases) := by
  intro hcs t ht
  have key : ∀ (als : List String) (acc : MatcherState),
      (∀ u ∈ acc.terms, lowerStr u.data = u.data) →
      ∀ u ∈ (als.foldl
          (fun t a => { t with terms := setAdd t.terms (normalizeTerm cfg a) }) acc).terms,
        lowerStr u.data = u.data := by
    intro als
    induction als with
    | nil => exact fun acc hacc => hacc
    | cons a as ih =>
      intro acc hacc
      apply ih
      intro u hu
      rcases mem_setAdd hu with hu | rfl
      · exact hacc u hu
      · exact normalizeTerm_norm hcs a
  rcases aliases with _ | als
  · unfold addTerm at ht
    rcases mem_setAdd ht with h1 | rfl
    · exact h hcs t h1
    · exact normalizeTerm_norm hcs term
  · unfold addTerm at ht
    refine key als _ ?_ t ht
    intro u hu
    rcases mem_setAdd hu with h1 | rfl
    · exact h hcs u h1
    · exact normalizeTerm_norm hcs term

/-- C4 (amended): confidence compares the stored (case-normalized) term with
the matched slice of the (case-normalized) search text, so 0.8 never arises
for a literal match, and under a case-insensitive configuration every match
carries confidence 1.0 — a case-differing occurrence or an alias hit is not
scored 0.9 / 0.8. -/
theorem claim_confidence_amended :
    (∀ cfg, MatcherNormalized cfg emptyMatcher) ∧
    (∀ cfg tm term aliases, MatcherNormalized cfg tm →
      MatcherNormalized cfg (addTerm cfg tm term aliases)) ∧
    (∀ cfg tm text seg, MatcherNormalized cfg tm →
      ∀ m ∈ findTermsInText cfg tm text seg,
        (m.confidence = 1 ∨ m.confidence = 9 / 10) ∧
        (cfg.caseSensitive = false → m.confidence = 1)) := by
  refine ⟨fun cfg _ t ht => absurd ht (List.not_mem_nil t),
    fun cfg tm term aliases h => addTerm_normalized h, ?_⟩
  intro cfg tm text seg hnorm m hm
  rcases mem_findTermsInText hm with ⟨term, hterm, i, hi, rfl⟩
  have hci := regexMatchAt_ci (execLoop_mem hi)
  obtain ⟨hmap, hbound⟩ := ciMatchAt_spec hci
  constructor
  · show (calculateConfidence term.data
        (((if cfg.caseSensitive then text else lowerStr text).drop i).take
          term.data.length) = 1) ∨
      (calculateConfidence term.data
        (((if cfg.caseSensitive then text else lowerStr text).drop i).take
          term.data.length) = 9 / 10)
    unfold calculateConfidence
    by_cases he : (term.data ==
        ((if cfg.caseSensitive then text else lowerStr text).drop i).take
          term.data.length) = true
    · rw [if_pos he]
      exact Or.inl rfl
    · rw [if_neg he]
      have hcase : (lowerStr term.data ==
          lowerStr (((if cfg.caseSensitive then text else lowerStr text).drop i).take
            term.data.length)) = true := by
        have : lowerStr term.data = lowerStr
            (((if cfg.caseSensitive then text else lowerStr text).drop i).take
              term.data.length) := hmap.symm
        simp [this]
      rw [if_pos hcase]
      exact Or.inr rfl
  · intro hcs
    have hneg : ¬ (cfg.caseSensitive = true) := by
      rw [hcs]
      exact Bool.false_ne_true
    show calculateConfidence term.data
        (((if cfg.caseSensitive then text else lowerStr text).drop i).take
          term.data.length) = 1
    rw [if_neg hneg] at hmap ⊢
    have hfix : ∀ c ∈ ((lowerStr text).drop i).take term.data.length, Char.toLower c = c := by
      intro c hc
      have hc2 : c ∈ lowerStr text := List.mem_of_mem_drop (List.mem_of_mem_take hc)
      rcases List.mem_map.mp hc2 with ⟨c0, _, rfl⟩
      exact toLower_toLower c0
    have hslice : (((lowerStr text).drop i).take term.data.length).map Char.toLower
        = ((lowerStr text).drop i).take term.data.length := by
      have h1 := List.map_congr_left hfix
      rw [h1]
      simp
    have htermfix : term.data.map Char.toLower = term.data := hnorm hcs term hterm
    have heq : ((lowerStr text).drop i).take term.data.length = term.data := by
      rw [← hslice, hmap, htermfix]
    unfold calculateConfidence
    rw [if_pos (show (term.data == List.take term.data.length
      (List.drop i (lowerStr text))) = true by rw [heq]; simp)]

/-! ## Matcher fixtures for C4, C5 and C6 -/

/-- Case-insensitive word-boundary configuration used by the matcher claims. -/
def ciCfgW : HighlightConfig := { wordBoundary := true, caseSensitive := false }

/-- Case-sensitive word-boundary configuration used by the matcher claims. -/
def csCfgW : HighlightConfig := { wordBoundary := true, caseSensitive := true }

/-- Registry holding the single term `API` under the case-insensitive configuration. -/
def tmApiW : MatcherState := addTerm ciCfgW emptyMatcher "API" none

/-- Registry holding the single term `API` under the case-sensitive configuration. -/
def tmApiCsW : MatcherState := addTerm csCfgW emptyMatcher "API" none

/-- Registry holding `JavaScript` with alias `JS` under the case-sensitive configuration. -/
def tmAliasW : MatcherState := addTerm csCfgW emptyMatcher "JavaScript" (some ["JS"])

/-- Two text segments in document order. -/
def segsW : List (List Char) := ["xx API".data, "API".data]

/-- C4 (counterexample): under the case-insensitive configuration the text
slice matched for the registered term `API` in the text `api` differs from
the term only by case, so the claim scores it 0.9 — yet the match is
returned with confidence 1.0; and under the case-sensitive configuration
the alias hit `JS` for `JavaScript` (an alias match, 0.8 per the claim) is
returned with confidence 1.0. -/
theorem claim_confidence_counterexample :
    ((findTermsInText ciCfgW tmApiW "api".data 0).map (fun m => m.confidence) = [1] ∧
      "api".data ≠ "API".data ∧ lowerStr "api".data = lowerStr "API".data) ∧
    (findTermsInText csCfgW tmAliasW "use JS now".data 0).map
        (fun m => (m.term, m.confidence)) = [("JavaScript", 1)] :=
  ⟨⟨rfl, by decide, by decide⟩, rfl⟩

/-- C4 (amended, witness): the amended confidence policy instantiated at the
case-insensitive registry holding `API` and the text `api`. -/
theorem claim_confidence_amended_witness :
    MatcherNormalized ciCfgW tmApiW ∧
    ∀ m ∈ findTermsInText ciCfgW tmApiW "api".data 0,
      (m.confidence = 1 ∨ m.confidence = 9 / 10) ∧
      (ciCfgW.caseSensitive = false → m.confidence = 1) :=
  ⟨by decide, claim_confidence_amended.2.2 ciCfgW tmApiW "api".data 0 (by decide)⟩

/-- C5 (code bug): the regex is always compiled with the `i` flag, so even
under a case-sensitive configuration the registered term `API` is reported
as a match in the text `api`, where no character agrees with the term in
case — scored 0.9 instead of being rejected. -/
theorem claim_case_sensitivity_bug :
    findTermsInText csCfgW tmApiCsW "api".data 0 =
      [{ term := "API", start := 0, stop := 3, seg := 0, confidence := 9 / 10 }] :=
  rfl

/-- C6 (counterexample): `findMatches` sorts all matches globally by their
per-segment start offset, so the `API` match of the second segment
(per-segment start 0) is returned before the `API` match of the first
segment (per-segment start 3). -/
theorem claim_match_order_counterexample :
    (findMatches ciCfgW tmApiW segsW).map (fun m => (m.seg, m.start)) =
      [(1, 0), (0, 3)] :=
  rfl

/-- C6 (amended): `findMatches` visits the segments in document order,
collecting per-segment scan-order matches with per-segment offsets, but then
sorts all of them globally (stably) by the per-segment start offset: the
result is a permutation of the document-order concatenation that is
nondecreasing in `start`, so a match in a later segment can precede a match
in an earlier segment. -/
theorem claim_match_order_amended (cfg : HighlightConfig) (tm : MatcherState)
    (segments : List (List Char)) :
    (findMatches cfg tm segments).Perm
      ((segments.enum.map (fun p => findTermsInText cfg tm p.2 p.1)).flatten) ∧
    (findMatches cfg tm segments).Pairwise (fun a b => a.start ≤ b.start) := by
  constructor
  · exact sortByLe_perm _ _
  · have h := @sortByLe_sorted TermMatch (fun a b => decide (a.start ≤ b.start))
      (fun a b c h1 h2 => by
        simp only [decide_eq_true_eq] at h1 h2 ⊢
        omega)
      (fun a b => by
        simp only [Bool.or_eq_true, decide_eq_true_eq]
        omega)
      ((segments.enum.map (fun p => findTermsInText cfg tm p.2 p.1)).flatten)
    exact h.imp (fun hab => of_decide_eq_true hab)
